import Mathlib

/-!
Verification development for the 2D dynamic bounding-volume hierarchy
(`src/bvh/bvh.cpp`, with the earlier revision of the same translation unit
in `src/unnamed/part_000`).

Two complementary shallow embeddings are built here, both over exact
integer arithmetic in place of IEEE `float` (the engine's arithmetic is
division free — only `+`, `−`, `·`, `min`, `max` and comparisons occur —
so exact integers model it faithfully and keep every definition
kernel-computable):

* an **arena model** (`bvh_t`): the node pool, free list and root index,
  with every public and private operation of `bvh.cpp` translated as an
  explicit state-passing function.  Machine loops that chase parent
  pointers take an explicit fuel argument (the source loops terminate
  because the parent graph of a well formed tree is acyclic); `assert`
  statements are modelled with release semantics (no-ops), except where an
  operation's result is inherently partial.  This model is executable and
  is used to run the literal seed scenarios of the specification.

* a **tree view** (`tree`): the rooted binary tree reachable from `_root`,
  each node decorated with its arena handle, its fat AABB and its payload.
  Child pointers become subtrees and the redundant parent pointers become
  the path context.  The traversal kernels, the branch-and-bound sibling
  search (with the faithful binary-heap translation) and the rotation
  optimizer are translated on this view for the universally quantified
  claims.

The header `bvh.h` is not part of the sources provided (only `bvh.cpp`,
the demo and the soak test are); the AABB algebra, the node record and the
arena constants it declares are modelled from the specification, and each
such definition is marked `Modelled from the spec:`.
-/

namespace BVH

/-- Sentinel for absent links.  Modelled from the spec: `bvh.h` (absent
from the sources) declares a dedicated `invalid_index` constant; we use
the customary all-ones 32-bit value. -/
def invalid_index : Nat := 4294967295

/-- Modelled from the spec: the AABB value type of `bvh.h` (absent from
the sources): four coordinates with `min ≤ max` on each axis intended;
exact integers stand in for `float`. -/
structure aabb_t where
  minx : ℤ
  miny : ℤ
  maxx : ℤ
  maxy : ℤ
deriving DecidableEq, Repr

/-- Modelled from the spec: `area = (max_x − min_x)·(max_y − min_y)`. -/
def aabb_t.area (a : aabb_t) : ℤ :=
  (a.maxx - a.minx) * (a.maxy - a.miny)

/-- Modelled from the spec: componentwise union of two AABBs. -/
def aabb_t.find_union (a b : aabb_t) : aabb_t :=
  ⟨min a.minx b.minx, min a.miny b.miny, max a.maxx b.maxx, max a.maxy b.maxy⟩

/-- Modelled from the spec: closed containment of `b` in `a`. -/
def aabb_t.contains (a b : aabb_t) : Bool :=
  decide (a.minx ≤ b.minx ∧ a.miny ≤ b.miny ∧ b.maxx ≤ a.maxx ∧ b.maxy ≤ a.maxy)

/-- Modelled from the spec: inclusive interval intersection on both axes. -/
def aabb_t.overlaps (a b : aabb_t) : Bool :=
  decide (a.minx ≤ b.maxx ∧ b.minx ≤ a.maxx ∧ a.miny ≤ b.maxy ∧ b.miny ≤ a.maxy)

/-- Modelled from the spec: `grow(a, k)` expands `a` by the absolute
margin `k` on all four sides (`min -= k, max += k`). -/
def aabb_t.grow (a : aabb_t) (k : ℤ) : aabb_t :=
  ⟨a.minx - k, a.miny - k, a.maxx + k, a.maxy + k⟩

/-- A box is valid when `min ≤ max` on each axis (spec §3 data model). -/
def aabb_t.valid (a : aabb_t) : Bool :=
  decide (a.minx ≤ a.maxx ∧ a.miny ≤ a.maxy)

/-- Modelled from the spec: the node record of `bvh.h` (absent from the
sources): a fat AABB, a parent handle, two child handles and an opaque
payload (modelled as a number).  A node is a leaf iff its first child
handle is `invalid_index`. -/
structure node_t where
  aabb : aabb_t
  parent : Nat
  child0 : Nat
  child1 : Nat
  user_data : Nat
deriving DecidableEq, Repr

instance : Inhabited node_t :=
  ⟨⟨⟨0, 0, 0, 0⟩, invalid_index, invalid_index, invalid_index, 0⟩⟩

/-- Modelled from the spec: a node is a leaf iff its first child handle is
the sentinel. -/
def node_t.is_leaf (n : node_t) : Bool :=
  decide (n.child0 = invalid_index)

/-- Modelled from the spec: replace the child slot holding `a` with `b`
(insertion step 4: "Create parent P replacing S in S.parent's child
slot"). -/
def node_t.replace_child (n : node_t) (a b : Nat) : node_t :=
  if n.child0 = a then { n with child0 := b }
  else if n.child1 = a then { n with child1 := b }
  else n

/-! ### The fixed size binary heap (`bin_heap_t`, bvh.cpp lines 10-131)

The backing `std::array` becomes a list read and written positionally;
position 0 is the unused base-1 slot.  `index_` is the next insertion
point, so the live entries sit at positions `[1, index_)`.  The template
parameter `c_size` becomes the `c_size` argument of `heap_push`; `push`
on a full heap is an assertion failure in the source and yields `none`
here. -/

/-- Positional write used for the heap backing store (`heap_[i] = x`);
writes one past the end extend the store by one slot. -/
def lset1 (l : List α) (i : Nat) (x : α) : List α :=
  if i < l.length then l.set i x else l ++ [x]

/-- `std::swap(heap_[i], heap_[j])`. -/
def lswap (l : List α) (i j : Nat) (d : α) : List α :=
  (l.set i (l.getD j d)).set j (l.getD i d)

structure bin_heap_t (α : Type) where
  heap_ : List α
  index_ : Nat
deriving Repr

/-- `bin_heap_t()` : the empty heap (`index_ = c_root = 1`). -/
def heap_empty (d : α) : bin_heap_t α := ⟨[d], 1⟩

def heap_size (h : bin_heap_t α) : Nat := h.index_ - 1

/-- `bubble_up`: while not at the root, swap with the parent as long as
the item compares below it.  The loop variable halves each step, so
`i + 1` fuel always suffices (structural fuel keeps the definition
kernel-reducible). -/
def bubble_up (lt : α → α → Bool) (d : α) : Nat → List α → Nat → List α
  | 0, l, _ => l
  | fuel + 1, l, i =>
    if 1 < i then
      let j := i / 2
      if lt (l.getD i d) (l.getD j d) then bubble_up lt d fuel (lswap l i j d) j
      else l
    else l

/-- `bubble_down`: push the item at `i` down while a child compares below
it; `idx` is the current `index_` bounding the live region.  The loop
variable climbs `i ↦ 2i(+1)`, so `idx` steps of fuel always suffice. -/
def bubble_down (lt : α → α → Bool) (d : α) (idx : Nat) :
    Nat → List α → Nat → List α
  | 0, l, _ => l
  | fuel + 1, l, i =>
    let x := 2 * i
    let y := 2 * i + 1
    if x < idx then
      let sel := decide (y < idx) && lt (l.getD y d) (l.getD x d)
      let b := if sel then y else x
      if lt (l.getD b d) (l.getD i d) then
        bubble_down lt d idx fuel (lswap l b i d) b
      else l
    else l

/-- `push`: fails (`assert(!full())`) when `index_ > c_size`, otherwise
stores at `index_`, bubbles up, and bumps `index_`. -/
def heap_push (c_size : Nat) (lt : α → α → Bool) (d : α) (x : α)
    (h : bin_heap_t α) : Option (bin_heap_t α) :=
  if h.index_ > c_size then none
  else
    let i := h.index_
    let l1 := lset1 h.heap_ i x
    let l2 := bubble_up lt d (i + 1) l1 i
    some ⟨l2, i + 1⟩

/-- `pop`: callers always guard with `empty()`, which we fuse here
(`none` on the empty heap, where the source `assert` would fire): save
the root, swap it with the last live entry, shrink, bubble down. -/
def heap_pop (lt : α → α → Bool) (d : α) (h : bin_heap_t α) :
    Option (α × bin_heap_t α) :=
  if h.index_ ≤ 1 then none
  else
    let out := h.heap_.getD 1 d
    let idx := h.index_ - 1
    let l1 := lswap h.heap_ 1 idx d
    let l2 := bubble_down lt d idx (idx + 1) l1 1
    some (out, ⟨l2, idx⟩)

/-! ### The arena model of `bvh_t` -/

/-- The tree state: the node pool (its length is the construction-time
capacity `_max_nodes`), the growth margin, the free-list head and the
root handle.  Modelled from the spec for the parts declared in the absent
`bvh.h`; the operations below are translated from `bvh.cpp`. -/
structure bvh_t where
  nodes : List node_t
  growth : ℤ
  free_list : Nat
  root : Nat
deriving DecidableEq, Repr

def bvh_t.get (s : bvh_t) (i : Nat) : node_t := s.nodes.getD i default

def bvh_t.modify (s : bvh_t) (i : Nat) (f : node_t → node_t) : bvh_t :=
  { s with nodes := s.nodes.set i (f (s.get i)) }

def bvh_t.is_leaf_at (s : bvh_t) (i : Nat) : Bool := (s.get i).is_leaf

/-- `_free_all` / construction: every slot is chained through its first
child slot, the last one is terminated, and the root is cleared. -/
def bvh_t.mk_bvh (cap : Nat) (growth : ℤ) : bvh_t where
  nodes := (List.range cap).map fun i =>
    { aabb := ⟨0, 0, 0, 0⟩
      parent := invalid_index
      child0 := if i + 1 = cap then invalid_index else i + 1
      child1 := invalid_index
      user_data := 0 }
  growth := growth
  free_list := 0
  root := invalid_index

/-- `_new_node`: pop the free-list head (the source asserts the pool is
not exhausted; exhaustion never occurs in the runs below). -/
def bvh_t._new_node (s : bvh_t) : Nat × bvh_t :=
  (s.free_list, { s with free_list := (s.get s.free_list).child0 })

/-- `_free_node`: push a slot back onto the free list through its first
child slot. -/
def bvh_t._free_node (s : bvh_t) (index : Nat) : bvh_t :=
  let s1 := s.modify index fun n => { n with child0 := s.free_list }
  { s1 with free_list := index }

/-- `_insert_into_leaf`: allocate an interior node over `leaf` and `node`,
wire children and parents, and set its AABB to the exact union. -/
def bvh_t._insert_into_leaf (s : bvh_t) (leaf node : Nat) : Nat × bvh_t :=
  let p := s._new_node
  let inter := p.1
  let s1 := p.2
  let s2 := s1.modify inter fun n =>
    { n with child0 := leaf, child1 := node, parent := invalid_index }
  let s3 := s2.modify leaf fun n => { n with parent := inter }
  let s4 := s3.modify node fun n => { n with parent := inter }
  let s5 := s4.modify inter fun n =>
    { n with aabb := aabb_t.find_union (s4.get leaf).aabb (s4.get node).aabb }
  (inter, s5)

/-- One iteration of the rotation loop body of `_optimize(node_t&)`
(bvh.cpp lines 544-609), operating on the node at slot `i`.  Every branch
of the source, including the unconditional child swap that ends an
iteration and the early returns, is mirrored; the swaps are written as
positional writes of the previously read values. -/
def bvh_t._optimize_pass (s : bvh_t) (i : Nat) : bvh_t :=
  let c0i := (s.get i).child0
  let c1i := (s.get i).child1
  if c0i = invalid_index ∨ c1i = invalid_index then s
  else
    let x0i := (s.get c0i).child0
    let x1i := (s.get c0i).child1
    if x0i = invalid_index ∨ x1i = invalid_index then
      s.modify i fun n => { n with child0 := n.child1, child1 := n.child0 }
    else
      let h0 := (s.get c0i).aabb.area
      let a1 := aabb_t.find_union (s.get c1i).aabb (s.get x1i).aabb
      let h1 := a1.area
      let a2 := aabb_t.find_union (s.get x0i).aabb (s.get c1i).aabb
      let h2 := a2.area
      let s' :=
        if h1 < h2 then
          if h1 < h0 then
            let t1 := s.modify c1i fun n => { n with parent := c0i }
            let t2 := t1.modify x0i fun n => { n with parent := (t1.get c0i).parent }
            let t3 := t2.modify c0i fun n => { n with child0 := c1i }
            let t4 := t3.modify i fun n => { n with child1 := x0i }
            t4.modify c0i fun n => { n with aabb := a1 }
          else s
        else
          if h2 < h0 then
            let t1 := s.modify c1i fun n => { n with parent := c0i }
            let t2 := t1.modify x1i fun n => { n with parent := (t1.get c0i).parent }
            let t3 := t2.modify c0i fun n => { n with child1 := c1i }
            let t4 := t3.modify i fun n => { n with child1 := x1i }
            t4.modify c0i fun n => { n with aabb := a2 }
          else s
      s'.modify i fun n => { n with child0 := n.child1, child1 := n.child0 }

/-- `_optimize(node_t&)`: the rotation loop runs its body twice (the
`for (int i = 0; i < 2; ++i)` loop). -/
def bvh_t._optimize_node (s : bvh_t) (i : Nat) : bvh_t :=
  (s._optimize_pass i)._optimize_pass i

/-- `_recalc_aabbs`: walk parent pointers to the root, recomputing each
AABB as the exact union of the children and running the rotation
optimizer at each step.  `fuel` bounds the walk (the source loop
terminates because parent chains of well formed trees are acyclic). -/
def bvh_t._recalc_aabbs (s : bvh_t) (i : Nat) : Nat → bvh_t
  | 0 => s
  | fuel + 1 =>
    if i = invalid_index then s
    else
      let s1 := s.modify i fun n =>
        { n with aabb := aabb_t.find_union (s.get n.child0).aabb (s.get n.child1).aabb }
      let s2 := s1._optimize_node i
      s2._recalc_aabbs ((s2.get i).parent) fuel

/-- `_touched_aabb`: walk parent pointers to the root recomputing each
AABB as the exact union of the children (no rotations). -/
def bvh_t._touched_aabb (s : bvh_t) (i : Nat) : Nat → bvh_t
  | 0 => s
  | fuel + 1 =>
    if i = invalid_index then s
    else
      let s1 := s.modify i fun n =>
        { n with aabb := aabb_t.find_union (s.get n.child0).aabb (s.get n.child1).aabb }
      s1._touched_aabb ((s1.get i).parent) fuel

/-- The `search_t` record of `_find_best_sibling`. -/
structure search_t where
  index : Nat
  cost : ℤ
deriving DecidableEq, Repr

/-- `search_t::operator<` : strict comparison of the costs. -/
def search_lt (a b : search_t) : Bool := decide (a.cost < b.cost)

def search_dflt : search_t := ⟨invalid_index, 0⟩

/-- `cost >= best_cost`, with `best_cost` initialised to `INFINITY`
modelled as `none` (every finite cost compares below it). -/
def cost_ge (c : ℤ) (b : Option ℤ) : Bool :=
  match b with
  | none => false
  | some v => decide (v ≤ c)

/-- The branch-and-bound loop of `_find_best_sibling` (bvh.cpp lines
267-290) on the arena: pop the cheapest entry, compute the inflation
cost, prune against the best leaf found, and otherwise record the leaf or
push both children at the accumulated cost.  `fuel` bounds the iteration
count; the full-heap `assert` inside `push` surfaces as an abandoned
search returning the current best. -/
def bvh_t._fbs_loop (s : bvh_t) (aabb : aabb_t) :
    Nat → bin_heap_t search_t → Option ℤ → Nat → Nat
  | 0, _, _, besti => besti
  | fuel + 1, pq, bestc, besti =>
    match heap_pop search_lt search_dflt pq with
    | none => besti
    | some (e, pq1) =>
      let n := s.get e.index
      let uni := aabb_t.find_union aabb n.aabb
      let growth := uni.area - n.aabb.area
      let cost := e.cost + growth
      if cost_ge cost bestc then s._fbs_loop aabb fuel pq1 bestc besti
      else if n.is_leaf then s._fbs_loop aabb fuel pq1 (some cost) e.index
      else
        match heap_push 1024 search_lt search_dflt ⟨n.child0, cost⟩ pq1 with
        | none => besti
        | some pq2 =>
          match heap_push 1024 search_lt search_dflt ⟨n.child1, cost⟩ pq2 with
          | none => besti
          | some pq3 => s._fbs_loop aabb fuel pq3 bestc besti

/-- `_find_best_sibling`: seed the fixed-capacity (1024) heap with the
root at cost 0 and run the loop. -/
def bvh_t._find_best_sibling (s : bvh_t) (aabb : aabb_t) : Nat :=
  let pq0 := heap_empty search_dflt
  let pq1 :=
    if s.root ≠ invalid_index then
      (heap_push 1024 search_lt search_dflt ⟨s.root, 0⟩ pq0).getD pq0
    else pq0
  s._fbs_loop aabb (2 * s.nodes.length + 2) pq1 none invalid_index

/-- `_insert`: find the best sibling, graft the new leaf beside it via a
fresh interior node, reconnect the old parent, and recalc/rotate on the
way up. -/
def bvh_t._insert (s : bvh_t) (node : Nat) : bvh_t :=
  let aabb := (s.get node).aabb
  let sibi := s._find_best_sibling aabb
  let parent := (s.get sibi).parent
  let p := s._insert_into_leaf sibi node
  let inter := p.1
  let s1 := p.2
  let s2 := s1.modify inter fun n => { n with parent := parent }
  let s3 :=
    if parent ≠ invalid_index then
      s2.modify parent fun n => n.replace_child sibi inter
    else s2
  s3._recalc_aabbs parent (s3.nodes.length + 1)

/-- `insert`: allocate and initialise the fat leaf, then place it (empty
tree, leaf root, or general case). -/
def bvh_t.insert (s : bvh_t) (aabb : aabb_t) (user_data : Nat) : Nat × bvh_t :=
  let p := s._new_node
  let index := p.1
  let s1 := p.2
  let s2 := s1.modify index fun n =>
    { n with aabb := aabb_t.grow aabb s1.growth
             user_data := user_data
             parent := invalid_index
             child0 := invalid_index
             child1 := invalid_index }
  if s2.root = invalid_index then (index, { s2 with root := index })
  else if s2.is_leaf_at s2.root then
    let q := s2._insert_into_leaf s2.root index
    (index, { q.2 with root := q.1 })
  else (index, s2._insert index)

/-- `_unlink` (bvh.cpp lines 380-444): the three removal cases.  Case 1:
the leaf is the root.  Case 2: its parent is the root, so the sibling is
promoted.  Case 3: general, with the sibling promoted into the
grandparent's child slot and the ancestor AABBs recomputed. -/
def bvh_t._unlink (s : bvh_t) (index : Nat) : bvh_t :=
  if index = s.root then { s with root := invalid_index }
  else
    let p0i := (s.get index).parent
    if (s.get p0i).parent = invalid_index then
      let sib := if (s.get p0i).child0 = index then 1 else 0
      let newroot := if sib = 1 then (s.get p0i).child1 else (s.get p0i).child0
      let s1 := { s with root := newroot }
      let s2 := s1.modify newroot fun n => { n with parent := invalid_index }
      let s3 := s2._free_node p0i
      s3.modify index fun n => { n with parent := invalid_index }
    else
      let p1i := (s.get p0i).parent
      let p1c := if (s.get p1i).child0 = p0i then 0 else 1
      let p0c := if (s.get p0i).child0 = index then 0 else 1
      let sib := if p0c = 0 then (s.get p0i).child1 else (s.get p0i).child0
      let s1 := s.modify p1i fun n =>
        if p1c = 0 then { n with child0 := sib } else { n with child1 := sib }
      let s2 := s1.modify sib fun n => { n with parent := p1i }
      let s3 := s2._touched_aabb p1i (s2.nodes.length + 1)
      let s4 := s3._free_node p0i
      s4.modify index fun n => { n with parent := invalid_index }

/-- `remove`: unlink the leaf, then thread its slot onto the free list
(clearing its second child slot). -/
def bvh_t.remove (s : bvh_t) (index : Nat) : bvh_t :=
  let s1 := s._unlink index
  let s2 := s1.modify index fun n =>
    { n with child0 := s1.free_list, child1 := invalid_index }
  { s2 with free_list := index }

/-- `move` (bvh.cpp lines 332-357), translated exactly as written: the
hysteresis short-circuit, the unlink, the fresh fat AABB, and the
re-insertion.  Note that — unlike `insert` — the `_is_leaf(_root)` branch
does not return, so `_insert(index)` also runs in that case. -/
def bvh_t.move (s : bvh_t) (index : Nat) (aabb : aabb_t) : bvh_t :=
  if (s.get index).aabb.contains aabb then s
  else
    let s1 := s._unlink index
    let s2 := s1.modify index fun n => { n with aabb := aabb_t.grow aabb s1.growth }
    if s2.root = invalid_index then { s2 with root := index }
    else
      let s3 :=
        if s2.is_leaf_at s2.root then
          let q := s2._insert_into_leaf s2.root index
          { q.2 with root := q.1 }
        else s2
      s3._insert index

/-- The conjunction of the `_validate` assertions (bvh.cpp lines 464-502)
as a recursive boolean check from `index`; `fuel` bounds the recursion
depth and an exhausted fuel reports failure. -/
def bvh_t.validateB (s : bvh_t) : Nat → Nat → Bool
  | 0, _ => false
  | fuel + 1, index =>
    if index = invalid_index then true
    else
      let n := s.get index
      (if index = s.root then decide (n.parent = invalid_index) else true) &&
      (if n.parent ≠ invalid_index then
        (decide ((s.get n.parent).child0 ≠ (s.get n.parent).child1)) &&
        (decide ((s.get n.parent).child0 = index ∨ (s.get n.parent).child1 = index))
       else true) &&
      (if n.is_leaf then
        decide (n.child0 = invalid_index) && decide (n.child1 = invalid_index)
       else
        decide (n.child0 ≠ invalid_index) && decide (n.child1 ≠ invalid_index) &&
        decide ((s.get n.child0).parent = index) &&
        decide ((s.get n.child1).parent = index) &&
        n.aabb.contains (s.get n.child0).aabb &&
        n.aabb.contains (s.get n.child1).aabb &&
        s.validateB fuel n.child0 &&
        s.validateB fuel n.child1)

/-- Property (P2) of spec §8 over the subtree at `index`: each interior
node's children point back to it through their `parent` fields. -/
def bvh_t.parentsMatchB (s : bvh_t) : Nat → Nat → Bool
  | 0, _ => false
  | fuel + 1, index =>
    if index = invalid_index then true
    else
      let n := s.get index
      if n.is_leaf then true
      else
        decide ((s.get n.child0).parent = index) &&
        decide ((s.get n.child1).parent = index) &&
        s.parentsMatchB fuel n.child0 &&
        s.parentsMatchB fuel n.child1

/-- Property (P1) of spec §8 over the subtree at `index`: each interior
node's AABB equals the exact union of its children's. -/
def bvh_t.unionExactB (s : bvh_t) : Nat → Nat → Bool
  | 0, _ => false
  | fuel + 1, index =>
    if index = invalid_index then true
    else
      let n := s.get index
      if n.is_leaf then true
      else
        decide (n.aabb = aabb_t.find_union (s.get n.child0).aabb (s.get n.child1).aabb) &&
        s.unionExactB fuel n.child0 &&
        s.unionExactB fuel n.child1

/-- Number of nodes reachable from `index` through child links. -/
def bvh_t.reachCount (s : bvh_t) : Nat → Nat → Nat
  | 0, _ => 0
  | fuel + 1, index =>
    if index = invalid_index then 0
    else
      let n := s.get index
      if n.is_leaf then 1
      else 1 + s.reachCount fuel n.child0 + s.reachCount fuel n.child1

/-- Length of the free list from `index` (fuel-bounded). -/
def bvh_t.freeLen (s : bvh_t) : Nat → Nat → Nat
  | 0, _ => 0
  | fuel + 1, index =>
    if index = invalid_index then 0
    else 1 + s.freeLen fuel (s.get index).child0

/-! ### The tree view

The rooted binary tree reachable from `_root`, with each node decorated
by its arena handle, its fat AABB and (on leaves) its payload.  A node's
child pointers become subtrees; the redundant parent pointers become the
path context and the free list is outside this view.  The query kernels,
the sibling search and the optimizer are translated on this view for the
universally quantified claims. -/

inductive tree where
  | leaf (idx : Nat) (bb : aabb_t) (ud : Nat)
  | node (idx : Nat) (bb : aabb_t) (l r : tree)
deriving DecidableEq, Repr

/-- The stored (fat) AABB of the node. -/
def tree.bb : tree → aabb_t
  | .leaf _ bb _ => bb
  | .node _ bb _ _ => bb

/-- The arena handle of the node. -/
def tree.idx : tree → Nat
  | .leaf i _ _ => i
  | .node i _ _ _ => i

/-- Number of nodes in the subtree. -/
def tree.size : tree → Nat
  | .leaf _ _ _ => 1
  | .node _ _ l r => 1 + l.size + r.size

/-- Number of leaves in the subtree. -/
def tree.nleaves : tree → Nat
  | .leaf _ _ _ => 1
  | .node _ _ l r => l.nleaves + r.nleaves

/-- The leaves of the subtree, left to right, as
(handle, fat AABB, payload) triples. -/
def tree.leavesList : tree → List (Nat × aabb_t × Nat)
  | .leaf i bb ud => [(i, bb, ud)]
  | .node _ _ l r => l.leavesList ++ r.leavesList

/-- §3 invariant 3 (the part the query kernels rely on): every interior
node's AABB contains both children's AABBs. -/
def tree.wfContain : tree → Bool
  | .leaf _ _ _ => true
  | .node _ bb l r => bb.contains l.bb && bb.contains r.bb &&
      l.wfContain && r.wfContain

/-- All AABBs in the subtree are valid (`min ≤ max` per axis, spec §3). -/
def tree.validBBs : tree → Bool
  | .leaf _ bb _ => bb.valid
  | .node _ bb l r => bb.valid && l.validBBs && r.validBBs

/-! ### The query kernel `find_overlaps` (bvh.cpp lines 617-645 and the
earlier revision, part_000 lines 495-523)

The explicit stack becomes a list holding its top first.  In the current
revision an interior hit replaces the popped top in place with
`child[0]` and pushes `child[1]` (one push per hit), so the new top is
`child[1]` and `child[0]` sits below it: `r :: l :: rest`.  In the
earlier revision the top is popped first and both children are pushed
(`child[0]` then `child[1]`), leaving the same stack.  Emission appends
to `out`, never clearing it. -/

/-- The current (replace-in-place) traversal loop. -/
def find_overlaps_loop (bb : aabb_t) : List tree → List Nat → List Nat
  | [], out => out
  | t :: rest, out =>
    if bb.overlaps t.bb then
      match t with
      | .leaf i _ _ => find_overlaps_loop bb rest (out ++ [i])
      | .node _ _ l r => find_overlaps_loop bb (r :: l :: rest) out
    else find_overlaps_loop bb rest out
termination_by stack _ => (stack.map tree.size).sum
decreasing_by
  all_goals simp [tree.size]
  all_goals try omega
  have ht : 0 < t.size := by cases t <;> simp [tree.size]
  omega

/-- The earlier revision's (pop then push both children) traversal loop. -/
def find_overlaps_loop_prev (bb : aabb_t) : List tree → List Nat → List Nat
  | [], out => out
  | t :: rest, out =>
    if bb.overlaps t.bb then
      match t with
      | .leaf i _ _ => find_overlaps_loop_prev bb rest (out ++ [i])
      | .node _ _ l r => find_overlaps_loop_prev bb (r :: l :: rest) out
    else find_overlaps_loop_prev bb rest out
termination_by stack _ => (stack.map tree.size).sum
decreasing_by
  all_goals simp [tree.size]
  all_goals try omega
  have ht : 0 < t.size := by cases t <;> simp [tree.size]
  omega

/-- `find_overlaps(aabb, out)` of the current revision, seeded with the
root. -/
def tree.find_overlaps (t : tree) (bb : aabb_t) (out : List Nat) : List Nat :=
  find_overlaps_loop bb [t] out

/-- `find_overlaps(aabb, out)` of the earlier revision. -/
def tree.find_overlaps_prev (t : tree) (bb : aabb_t) (out : List Nat) : List Nat :=
  find_overlaps_loop_prev bb [t] out

/-- Spec-side reference for (P6): the handles of exactly those leaves
whose stored fat AABB overlaps `q` (written from the claim's words, to
be compared with the traversal's output). -/
def overlap_leaf_handles (q : aabb_t) (t : tree) : List Nat :=
  (t.leavesList.filter fun p => q.overlaps p.2.1).map Prod.fst

/-! ### The rotation optimizer (`_optimize`, bvh.cpp lines 504-615) -/

/-- `_quality(n)` for a subtree hanging below the root: the sum of the
areas of its interior nodes (the `n == _root` discount does not apply
below the root, and leaves contribute nothing). -/
def tree._quality : tree → ℤ
  | .leaf _ _ _ => 0
  | .node _ bb l r => bb.area + l._quality + r._quality

/-- `quality()` = `_quality(_root)`: the root's own area is excluded. -/
def tree.quality : tree → ℤ
  | .leaf _ _ _ => 0
  | .node _ _ l r => l._quality + r._quality

/-- One iteration of the rotation loop body of `_optimize(node_t&)`
(bvh.cpp lines 544-609) on the tree view.  The `for` iteration ends with
the unconditional `std::swap(node.child[0], node.child[1])`, folded into
each non-returning branch; the early `return` when a child handle is
invalid is the leaf case.  Rotation 1 swaps `x0 ↔ c1` and sets
`c0.aabb = union(c1, x1)`; rotation 2 swaps `x1 ↔ c1` and sets
`c0.aabb = union(x0, c1)`. -/
def tree.optimize_pass : tree → tree
  | .leaf i bb ud => .leaf i bb ud
  | .node i bb c0 c1 =>
    match c0 with
    | .leaf ci cbb cud => .node i bb c1 (.leaf ci cbb cud)
    | .node ci cbb x0 x1 =>
      let h0 := cbb.area
      let a1 := aabb_t.find_union c1.bb x1.bb
      let h1 := a1.area
      let a2 := aabb_t.find_union x0.bb c1.bb
      let h2 := a2.area
      if h1 < h2 then
        if h1 < h0 then .node i bb x0 (.node ci a1 c1 x1)
        else .node i bb c1 (.node ci cbb x0 x1)
      else
        if h2 < h0 then .node i bb x1 (.node ci a2 x0 c1)
        else .node i bb c1 (.node ci cbb x0 x1)

/-- `_optimize(node_t&)`: the rotation loop body runs twice. -/
def tree.optimize_node (t : tree) : tree :=
  t.optimize_pass.optimize_pass

/-- `_optimize(index_t)` / public `optimize()`: the random descent
(`rand() & 0x80`) becomes an oracle of booleans consumed one per level;
`optimize_node` is applied on the way back up. -/
def tree.optimize_walk : List Bool → tree → tree
  | _, .leaf i bb ud => .leaf i bb ud
  | oracle, .node i bb l r =>
    let t1 :=
      if oracle.headD true then tree.node i bb (tree.optimize_walk oracle.tail l) r
      else tree.node i bb l (tree.optimize_walk oracle.tail r)
    t1.optimize_node

/-! ### The branch-and-bound sibling search on the tree view
(`_find_best_sibling`, bvh.cpp lines 247-293)

Heap entries hold the popped handle's subtree in place of the handle
itself (dereferencing `_get` becomes structural access); everything else
— the cost arithmetic, the pruning, the leaf/interior cases, the 1024
capacity and the push order — is the source line by line. -/

/-- The `search_t` entry on the tree view. -/
structure search_tv where
  t : tree
  cost : ℤ
deriving DecidableEq, Repr

/-- `search_t::operator<`: strict comparison of the costs. -/
def search_tv_lt (a b : search_tv) : Bool := decide (a.cost < b.cost)

def search_tv_dflt : search_tv := ⟨.leaf 0 ⟨0, 0, 0, 0⟩ 0, 0⟩

/-- The `while (!pqueue.empty())` loop of `_find_best_sibling`.  `fuel`
bounds the iteration count (each iteration strictly decreases the total
size of the subtrees held in the heap, so `size t + 1` suffices for a
heap seeded with `t`); a failed push (`assert(!full())`) aborts with
`none`. -/
def fbs_loop_tv (L : aabb_t) : Nat → bin_heap_t search_tv → Option ℤ → Nat → Option Nat
  | 0, _, _, _ => none
  | fuel + 1, pq, bestc, besti =>
    match heap_pop search_tv_lt search_tv_dflt pq with
    | none => some besti
    | some (e, pq1) =>
      let uni := aabb_t.find_union L e.t.bb
      let growth := uni.area - e.t.bb.area
      let cost := e.cost + growth
      if cost_ge cost bestc then fbs_loop_tv L fuel pq1 bestc besti
      else
        match e.t with
        | .leaf i _ _ => fbs_loop_tv L fuel pq1 (some cost) i
        | .node _ _ l r =>
          match heap_push 1024 search_tv_lt search_tv_dflt ⟨l, cost⟩ pq1 with
          | none => none
          | some pq2 =>
            match heap_push 1024 search_tv_lt search_tv_dflt ⟨r, cost⟩ pq2 with
            | none => none
            | some pq3 => fbs_loop_tv L fuel pq3 bestc besti

/-- `_find_best_sibling` on the tree view: seed the fixed-capacity
(1024) heap with the root at cost 0 and run the loop. -/
def tree.find_best_sibling (t : tree) (L : aabb_t) : Option Nat :=
  match heap_push 1024 search_tv_lt search_tv_dflt ⟨t, 0⟩ (heap_empty search_tv_dflt) with
  | none => none
  | some pq => fbs_loop_tv L (t.size + 1) pq none invalid_index

/-- The growth delta charged at a node whose AABB is `bb` when inserting
a leaf with AABB `L` below it: `area(union(bb, L)) − area(bb)`. -/
def cost_delta (L bb : aabb_t) : ℤ :=
  (aabb_t.find_union L bb).area - bb.area

/-- Every leaf of the subtree paired with its total insertion cost: the
sum of the growth deltas of its strict ancestors plus its own delta,
`acc` being the cost inherited from above this subtree.  This is the
cost function of the claim, written against which the search's result is
measured. -/
def tree.leafCosts (L : aabb_t) : tree → ℤ → List (Nat × ℤ)
  | .leaf i bb _, acc => [(i, acc + cost_delta L bb)]
  | .node _ bb l r, acc =>
    tree.leafCosts L l (acc + cost_delta L bb) ++
    tree.leafCosts L r (acc + cost_delta L bb)

/-- The segment `[1, idx)` of a base-1 store. -/
def segl (l : List α) (idx : Nat) : List α :=
  (l.take idx).drop 1

/-- The live entries of a heap: positions `[1, index_)` of the base-1
store. -/
def heap_entries (h : bin_heap_t α) : List α :=
  segl h.heap_ h.index_

/-- Structural well-formedness of a heap state: the base-1 cursor is at
least 1 and within the store. -/
def heap_wf (h : bin_heap_t α) : Prop :=
  1 ≤ h.index_ ∧ h.index_ ≤ h.heap_.length

/-- Total node count of the subtrees held in a multiset of search
entries (the termination measure of the search loop). -/
def szSum (ms : Multiset search_tv) : ℕ :=
  (ms.map fun e => e.t.size).sum

/-- Total leaf count of the subtrees held in a multiset of search
entries (the occupancy bound of the search heap). -/
def lfSum (ms : Multiset search_tv) : ℕ :=
  (ms.map fun e => e.t.nleaves).sum

/-- A search entry is coherent for the search over `t0` with box `L`:
its subtree's boxes are valid and its leaf costs are leaf costs of the
whole tree. -/
def entOK (L : aabb_t) (t0 : tree) (e : search_tv) : Prop :=
  e.t.validBBs = true ∧
  ∀ p ∈ tree.leafCosts L e.t e.cost, p ∈ tree.leafCosts L t0 0

/-- `bc` is a recorded best cost at most `q`. -/
def bestLe (bc : Option ℤ) (q : ℤ) : Prop :=
  ∃ c, bc = some c ∧ c ≤ q

/-- Each leaf/cost pair of the whole tree is accounted for: either the
recorded best already beats it, or an entry still in the heap reaches
it. -/
def covered (L : aabb_t) (ms : Multiset search_tv)
    (bc : Option ℤ) (p : Nat × ℤ) : Prop :=
  bestLe bc p.2 ∨ ∃ e, e ∈ ms ∧ p ∈ tree.leafCosts L e.t e.cost

/-- The recorded best index/cost is an actual leaf cost of the tree. -/
def bestOK (L : aabb_t) (t0 : tree) (bc : Option ℤ) (bi : Nat) : Prop :=
  ∀ c, bc = some c → (bi, c) ∈ tree.leafCosts L t0 0

/-! ### `remove` and `move` on the tree view (for the frame claims)

`_unlink` climbs parent pointers from the target leaf; on the tree view
the same surgery is found by descending to the target.  The three cases
of the source map to: the whole tree being the target leaf (case 1,
root becomes invalid — `none` here), the target's parent sitting at the
current node with the sibling promoted in its place (cases 2/3), and the
recursive case in which, after the removal succeeded deeper down, this
ancestor's AABB is recomputed as the exact union (the `_touched_aabb`
walk from the grandparent upwards). -/

/-- Is this subtree exactly the leaf `tgt`? -/
def tree.isLeafIdx : tree → Nat → Bool
  | .leaf i _ _, tgt => decide (i = tgt)
  | .node _ _ _ _, _ => false

/-- Does any leaf of the subtree carry handle `tgt`? -/
def tree.hasLeafIdx : tree → Nat → Bool
  | .leaf i _ _, tgt => decide (i = tgt)
  | .node _ _ l r, tgt => l.hasLeafIdx tgt || r.hasLeafIdx tgt

/-- Fat AABB and payload of the leaf `tgt` (`_get(index)` on a leaf
handle; leftmost occurrence). -/
def tree.getLeaf : tree → Nat → Option (aabb_t × Nat)
  | .leaf i bb ud, tgt => if i = tgt then some (bb, ud) else none
  | .node _ _ l r, tgt =>
    match tree.getLeaf l tgt with
    | some p => some p
    | none => tree.getLeaf r tgt

/-- `_unlink` of the leaf `tgt` (without the slot freeing, which lives
outside this view); `none` when the tree was exactly that leaf. -/
def tree.removeLeaf : tree → Nat → Option tree
  | .leaf i bb ud, tgt => if i = tgt then none else some (.leaf i bb ud)
  | .node i bb l r, tgt =>
    if l.isLeafIdx tgt then some r
    else if r.isLeafIdx tgt then some l
    else if l.hasLeafIdx tgt then
      match tree.removeLeaf l tgt with
      | none => some r
      | some l' => some (.node i (aabb_t.find_union l'.bb r.bb) l' r)
    else
      match tree.removeLeaf r tgt with
      | none => some l
      | some r' => some (.node i (aabb_t.find_union l.bb r'.bb) l r')

/-- The graft of `_insert` together with the `_recalc_aabbs` walk:
descend to the leaf `sibi`, replace it by a fresh interior node over it
and the new leaf `nl` (`_insert_into_leaf`), and on the way back up
recompute each ancestor's AABB as the exact union and run
`_optimize(node_t&)` on it. -/
def tree.graft_recalc : tree → Nat → tree → Nat → tree
  | .leaf i bb ud, sibi, nl, fresh =>
    if i = sibi then .node fresh (aabb_t.find_union bb nl.bb) (.leaf i bb ud) nl
    else .leaf i bb ud
  | .node i bb l r, sibi, nl, fresh =>
    if l.hasLeafIdx sibi then
      let l' := tree.graft_recalc l sibi nl fresh
      (tree.node i (aabb_t.find_union l'.bb r.bb) l' r).optimize_node
    else if r.hasLeafIdx sibi then
      let r' := tree.graft_recalc r sibi nl fresh
      (tree.node i (aabb_t.find_union l.bb r'.bb) l r').optimize_node
    else .node i bb l r

/-- `_insert(index)` on the tree view: sibling search, then graft plus
the ancestor recalc/rotate walk; a failed search (which the source
asserts against) leaves the tree unchanged. -/
def tree.insert_at_best (t : tree) (nl : tree) (fresh : Nat) : tree :=
  match t.find_best_sibling nl.bb with
  | none => t
  | some sibi => t.graft_recalc sibi nl fresh

/-- `move` on the tree view (bvh.cpp lines 332-357), mirroring the
source exactly, including the fallen-through `_is_leaf(_root)` branch:
the hysteresis short-circuit; the unlink; the fresh fat AABB; if the
tree became empty the leaf becomes the root; if the remaining root is a
leaf, graft the moved leaf over it — and then, with no `return` in the
way, `_insert` runs as well.  `freshA`/`freshB` are the handles the two
possible `_new_node` calls would return. -/
def tree.move_t (t : tree) (tgt : Nat) (a : aabb_t) (g : ℤ)
    (freshA freshB : Nat) : tree :=
  match t.getLeaf tgt with
  | none => t
  | some (fat, ud) =>
    if fat.contains a then t
    else
      let nl := tree.leaf tgt (aabb_t.grow a g) ud
      match t.removeLeaf tgt with
      | none => nl
      | some t1 =>
        let t2 :=
          match t1 with
          | .leaf i2 bb2 ud2 =>
            tree.node freshA (aabb_t.find_union bb2 (aabb_t.grow a g))
              (.leaf i2 bb2 ud2) nl
          | .node i2 bb2 l2 r2 => .node i2 bb2 l2 r2
        t2.insert_at_best nl freshB

/-! ### Concrete fixtures for witnesses and counterexamples -/

/-- The fat AABB of seed leaf `{0,0,1,1}` after growth 16. -/
def fatA : aabb_t := ⟨-16, -16, 17, 17⟩

/-- The fat AABB of seed leaf `{10,10,11,11}` after growth 16. -/
def fatB : aabb_t := ⟨-6, -6, 27, 27⟩

/-- The tree view of seed scenario 2: root interior over the two fat
leaves. -/
def treeEx : tree :=
  .node 2 (aabb_t.find_union fatA fatB) (.leaf 0 fatA 5) (.leaf 1 fatB 7)

/-- A full 1024-capacity heap: 1024 live entries, `index_ = 1025`. -/
def full_heap_ex : bin_heap_t search_tv :=
  ⟨List.replicate 1026 search_tv_dflt, 1025⟩

/-! ### The literal seed scenarios (spec §8)

The spec makes the capacity a construction parameter (design value 1024);
the runs below use a capacity of 8, ample for their at most four live
nodes, to keep the states small. -/

/-- A fresh tree of capacity 8 with the default growth margin 16. -/
def scn0 : bvh_t := bvh_t.mk_bvh 8 16

/-- Seed scenario 1: `insert({0,0,1,1})`, yielding handle 0. -/
def scnA : bvh_t := (scn0.insert ⟨0, 0, 1, 1⟩ 0).2

/-- Seed scenario 2: additionally `insert({10,10,11,11})`, yielding
handle 1 (the interior parent takes slot 2). -/
def scnB : bvh_t := (scnA.insert ⟨10, 10, 11, 11⟩ 1).2

/-- Seed scenario 4 ("forcing re-insert"): `move(h0, {100,100,101,101})`
on the two-leaf tree. -/
def scnC1 : bvh_t := scnB.move 0 ⟨100, 100, 101, 101⟩

/-- A two-leaf tree whose second leaf holds `{100,100,101,101}`. -/
def scnB2 : bvh_t := (scnA.insert ⟨100, 100, 101, 101⟩ 1).2

/-- Moving `h0` onto the other leaf's exact box (not contained in `h0`'s
old fat AABB, so the hysteresis short-circuit does not fire). -/
def scnC2 : bvh_t := scnB2.move 0 ⟨100, 100, 101, 101⟩

/-- **C1.** Code bug at the spec's own seed scenario 4: after
`move(h0, {100,100,101,101})` on the two-leaf tree, `move`'s
`_is_leaf(_root)` branch falls through (it lacks the `return` that
`insert` has), so `_insert(index)` grafts the already re-inserted leaf a
second time — beside itself, since its own fat AABB has insertion cost 0.
The resulting interior node 3 has both child slots equal to leaf 0,
violating §3 invariant 2 (the code's own `_validate` assertions fail),
and 5 tree positions (4 distinct slots) are reachable instead of the
claimed 3.  The fresh fat AABB itself is assigned as specified. -/
theorem c1_move_forced_reinsert_corrupts :
    scnC1.validateB 9 scnC1.root = false ∧
    scnC1.reachCount 9 scnC1.root = 5 ∧
    (scnC1.get 3).child0 = 0 ∧ (scnC1.get 3).child1 = 0 ∧
    (scnC1.get 0).aabb = aabb_t.grow ⟨100, 100, 101, 101⟩ 16 := by
  refine ⟨by decide, by decide, by decide, by decide, by decide⟩

/-- **C2.** Code bug: the same missing `return` in `move` can leave the
parent fields inconsistent after the operation.  Moving `h0` onto the
other leaf's box makes the sibling search pick the other leaf, after
which the stale child slot of the re-created root still holds leaf 0
while leaf 0's parent field points at the second fresh interior node:
(P2) fails after a public mutating operation (and the code's own
`_validate` assertions fail). -/
theorem c2_parent_fields_broken_after_move :
    scnC2.parentsMatchB 9 scnC2.root = false ∧
    scnC2.validateB 9 scnC2.root = false := by
  exact ⟨by decide, by decide⟩

/-- **C4.** The hysteresis short-circuit: when the leaf's stored fat AABB
contains the new box, `move` returns before any write, so the entire
state (arena contents, root, free list) is returned unchanged. -/
theorem c4_move_hysteresis_noop (s : bvh_t) (h : Nat) (a : aabb_t)
    (hleaf : (s.get h).child0 = invalid_index)
    (hcont : (s.get h).aabb.contains a = true) :
    s.move h a = s := by
  simp [bvh_t.move, hcont]

/-- Witness for `c4_move_hysteresis_noop` at the spec's seed scenario 3:
`move(h0, {0,0,1,1})` on the two-leaf tree is a no-op. -/
theorem c4_move_hysteresis_noop_witness :
    ((scnB.get 0).child0 = invalid_index ∧
      (scnB.get 0).aabb.contains ⟨0, 0, 1, 1⟩ = true) ∧
    scnB.move 0 ⟨0, 0, 1, 1⟩ = scnB :=
  ⟨⟨by decide, by decide⟩,
    c4_move_hysteresis_noop scnB 0 ⟨0, 0, 1, 1⟩ (by decide) (by decide)⟩

/-- **C6.** Code bug: on the two-leaf forced re-insert (scenario of
`c1_move_forced_reinsert_corrupts`) `move` allocates two arena slots
(`_insert_into_leaf` runs twice, once from the fallen-through leaf-root
branch and once from `_insert`) while its unlink freed only one, so the
free list shrinks from 5 to 4 entries: the number of nodes `move`
allocates exceeds the number it frees, contradicting the claim that
`move` never needs a net slot. -/
theorem c6_move_allocates_more_than_frees :
    scnB.freeLen 9 scnB.free_list = 5 ∧
    scnC1.freeLen 9 scnC1.free_list = 4 := by
  exact ⟨by decide, by decide⟩

/-! ### Structural facts about the tree view -/

theorem tree.size_pos (t : tree) : 0 < t.size := by
  cases t <;> simp [tree.size]

theorem tree.nleaves_pos (t : tree) : 0 < t.nleaves := by
  induction t with
  | leaf i bb ud => simp [tree.nleaves]
  | node i bb l r ihl ihr => simp [tree.nleaves]; omega

theorem tree.size_eq_two_nleaves_sub_one (t : tree) :
    t.size = 2 * t.nleaves - 1 := by
  induction t with
  | leaf i bb ud => simp [tree.size, tree.nleaves]
  | node i bb l r ihl ihr =>
    have hl := tree.nleaves_pos l
    have hr := tree.nleaves_pos r
    simp [tree.size, tree.nleaves, ihl, ihr]
    omega

/-! ### The rotation optimizer is non-increasing in quality (claim C7) -/

theorem tree.optimize_pass_bb (t : tree) : t.optimize_pass.bb = t.bb := by
  cases t with
  | leaf i bb ud => rfl
  | node i bb c0 c1 =>
    cases c0 with
    | leaf ci cbb cud => rfl
    | node ci cbb x0 x1 =>
      simp only [tree.optimize_pass]
      split_ifs <;> rfl

theorem tree.optimize_pass_sub_quality (t : tree) :
    t.optimize_pass._quality ≤ t._quality := by
  cases t with
  | leaf i bb ud => simp [tree.optimize_pass]
  | node i bb c0 c1 =>
    cases c0 with
    | leaf ci cbb cud =>
      simp [tree.optimize_pass, tree._quality]
    | node ci cbb x0 x1 =>
      simp only [tree.optimize_pass]
      split_ifs with h1 h2 h3 <;> simp [tree._quality] <;> omega

theorem tree.optimize_pass_quality (t : tree) :
    t.optimize_pass.quality ≤ t.quality := by
  cases t with
  | leaf i bb ud => simp [tree.optimize_pass]
  | node i bb c0 c1 =>
    cases c0 with
    | leaf ci cbb cud =>
      simp [tree.optimize_pass, tree.quality, tree._quality]
    | node ci cbb x0 x1 =>
      simp only [tree.optimize_pass]
      split_ifs with h1 h2 h3 <;> simp [tree.quality, tree._quality] <;> omega

theorem tree.optimize_node_sub_quality (t : tree) :
    t.optimize_node._quality ≤ t._quality :=
  le_trans (tree.optimize_pass_sub_quality t.optimize_pass)
    (tree.optimize_pass_sub_quality t)

theorem tree.optimize_node_quality (t : tree) :
    t.optimize_node.quality ≤ t.quality :=
  le_trans (tree.optimize_pass_quality t.optimize_pass)
    (tree.optimize_pass_quality t)

theorem tree.optimize_walk_sub_quality (oracle : List Bool) (t : tree) :
    (tree.optimize_walk oracle t)._quality ≤ t._quality := by
  induction t generalizing oracle with
  | leaf i bb ud => simp [tree.optimize_walk]
  | node i bb l r ihl ihr =>
    simp only [tree.optimize_walk]
    by_cases hb : oracle.headD true = true <;> simp only [hb, if_true, if_false]
    · refine le_trans (tree.optimize_node_sub_quality _) ?_
      have := ihl oracle.tail
      simp [tree._quality]
      omega
    · refine le_trans (tree.optimize_node_sub_quality _) ?_
      have := ihr oracle.tail
      simp [tree._quality]
      omega

theorem tree.optimize_walk_quality (oracle : List Bool) (t : tree) :
    (tree.optimize_walk oracle t).quality ≤ t.quality := by
  cases t with
  | leaf i bb ud => simp [tree.optimize_walk]
  | node i bb l r =>
    simp only [tree.optimize_walk]
    by_cases hb : oracle.headD true = true <;> simp only [hb, if_true, if_false]
    · refine le_trans (tree.optimize_node_quality _) ?_
      have := tree.optimize_walk_sub_quality oracle.tail l
      simp [tree.quality]
      omega
    · refine le_trans (tree.optimize_node_quality _) ?_
      have := tree.optimize_walk_sub_quality oracle.tail r
      simp [tree.quality]
      omega

/-- **C7.** Each rotation pass and the whole `optimize()` random descent
are monotone non-increasing in `quality()` — under exact arithmetic they
in fact never increase it at all, so the claimed float-slack bound
`quality_after ≤ quality_before + 1.0` holds for every tree, every
random-descent oracle, and every single `_optimize(node_t&)`
application. -/
theorem c7_optimize_quality_monotone :
    (∀ (oracle : List Bool) (t : tree),
      (tree.optimize_walk oracle t).quality ≤ t.quality + 1) ∧
    (∀ t : tree, t.optimize_node.quality ≤ t.quality + 1) ∧
    (∀ t : tree, t.optimize_node._quality ≤ t._quality + 1) := by
  refine ⟨fun oracle t => ?_, fun t => ?_, fun t => ?_⟩
  · have := tree.optimize_walk_quality oracle t
    omega
  · have := tree.optimize_node_quality t
    omega
  · have := tree.optimize_node_sub_quality t
    omega

/-! ### The two traversal revisions coincide (claim C9) -/

theorem find_overlaps_loop_eq_prev (bb : aabb_t) :
    ∀ (n : Nat) (stack : List tree), (stack.map tree.size).sum ≤ n →
      ∀ out, find_overlaps_loop bb stack out = find_overlaps_loop_prev bb stack out := by
  intro n
  induction n with
  | zero =>
    intro stack h out
    match stack with
    | [] => simp [find_overlaps_loop, find_overlaps_loop_prev]
    | t :: rest =>
      exfalso
      have := tree.size_pos t
      simp at h
      omega
  | succ n ih =>
    intro stack h out
    match stack with
    | [] => simp [find_overlaps_loop, find_overlaps_loop_prev]
    | t :: rest =>
      simp only [List.map_cons, List.sum_cons] at h
      cases t with
      | leaf i tb tu =>
        simp only [find_overlaps_loop, find_overlaps_loop_prev, tree.bb]
        by_cases ho : aabb_t.overlaps bb tb = true
        · rw [if_pos ho, if_pos ho]
          exact ih rest (by simp [tree.size] at h; omega) (out ++ [i])
        · rw [if_neg ho, if_neg ho]
          exact ih rest (by simp [tree.size] at h; omega) out
      | node j tb l r =>
        simp only [find_overlaps_loop, find_overlaps_loop_prev, tree.bb]
        by_cases ho : aabb_t.overlaps bb tb = true
        · rw [if_pos ho, if_pos ho]
          refine ih (r :: l :: rest) ?_ out
          simp [tree.size] at h ⊢
          omega
        · rw [if_neg ho, if_neg ho]
          exact ih rest (by simp [tree.size] at h; omega) out

/-- **C9.** The optimized traversal of the current revision (replace the
popped entry in place with `child[0]`, push `child[1]`; one push per
interior hit) produces exactly the same output sequence as the earlier
revision's plain pop-then-push-both traversal, for every tree, every
query AABB and every initial output buffer. -/
theorem c9_replace_in_place_traversal_equiv (t : tree) (bb : aabb_t)
    (out : List Nat) :
    t.find_overlaps bb out = t.find_overlaps_prev bb out :=
  find_overlaps_loop_eq_prev bb (([t].map tree.size).sum) [t] le_rfl out

/-! ### `find_overlaps` emits exactly the overlapping leaves (claim C8) -/

theorem overlaps_of_contains {q a b : aabb_t} (hc : a.contains b = true)
    (ho : q.overlaps b = true) : q.overlaps a = true := by
  simp [aabb_t.contains, aabb_t.overlaps] at hc ho ⊢
  omega

/-- Under §3 invariant 3, a query overlapping some leaf's box overlaps
every ancestor's box, in particular the subtree root's. -/
theorem tree.overlap_lift {q : aabb_t} {t : tree} (hwf : t.wfContain = true)
    {i : Nat} {bb : aabb_t} {ud : Nat} (hmem : (i, bb, ud) ∈ t.leavesList)
    (ho : q.overlaps bb = true) : q.overlaps t.bb = true := by
  induction t with
  | leaf j tb tu =>
    simp [tree.leavesList] at hmem
    obtain ⟨rfl, rfl, rfl⟩ := hmem
    simpa [tree.bb] using ho
  | node j tb l r ihl ihr =>
    simp only [tree.wfContain, Bool.and_eq_true] at hwf
    obtain ⟨⟨⟨hcl, hcr⟩, hwl⟩, hwr⟩ := hwf
    simp only [tree.leavesList, List.mem_append] at hmem
    rcases hmem with hm | hm
    · exact overlaps_of_contains hcl (ihl hwl hm)
    · exact overlaps_of_contains hcr (ihr hwr hm)

theorem overlap_leaf_handles_nil {q : aabb_t} {t : tree}
    (hwf : t.wfContain = true) (ho : ¬ q.overlaps t.bb = true) :
    overlap_leaf_handles q t = [] := by
  unfold overlap_leaf_handles
  have : t.leavesList.filter (fun p => q.overlaps p.2.1) = [] := by
    rw [List.filter_eq_nil]
    rintro ⟨i, bb, ud⟩ hmem hov
    exact ho (tree.overlap_lift hwf hmem hov)
  rw [this]
  rfl

theorem overlap_leaf_handles_node (q : aabb_t) (j : Nat) (tb : aabb_t)
    (l r : tree) :
    overlap_leaf_handles q (.node j tb l r) =
      overlap_leaf_handles q l ++ overlap_leaf_handles q r := by
  simp [overlap_leaf_handles, tree.leavesList, List.filter_append]

/-- The traversal only appends: its output is the input buffer followed
by what the same traversal emits from an empty buffer. -/
theorem find_overlaps_loop_acc (q : aabb_t) :
    ∀ (n : Nat) (stack : List tree), (stack.map tree.size).sum ≤ n →
      ∀ out, find_overlaps_loop q stack out = out ++ find_overlaps_loop q stack [] := by
  intro n
  induction n with
  | zero =>
    intro stack h out
    match stack with
    | [] => simp [find_overlaps_loop]
    | t :: rest =>
      exfalso
      have := tree.size_pos t
      simp at h
      omega
  | succ n ih =>
    intro stack h out
    match stack with
    | [] => simp [find_overlaps_loop]
    | t :: rest =>
      simp only [List.map_cons, List.sum_cons] at h
      cases t with
      | leaf i tb tu =>
        simp only [find_overlaps_loop, tree.bb]
        by_cases ho : aabb_t.overlaps q tb = true
        · rw [if_pos ho, if_pos ho]
          have hsz : (rest.map tree.size).sum ≤ n := by
            simp [tree.size] at h
            omega
          rw [ih rest hsz (out ++ [i]), ih rest hsz ([] ++ [i])]
          simp
        · rw [if_neg ho, if_neg ho]
          have hsz : (rest.map tree.size).sum ≤ n := by
            simp [tree.size] at h
            omega
          rw [ih rest hsz out]
      | node j tb l r =>
        simp only [find_overlaps_loop, tree.bb]
        by_cases ho : aabb_t.overlaps q tb = true
        · rw [if_pos ho, if_pos ho]
          have hsz : ((r :: l :: rest).map tree.size).sum ≤ n := by
            simp [tree.size] at h ⊢
            omega
          rw [ih (r :: l :: rest) hsz out]
        · rw [if_neg ho, if_neg ho]
          have hsz : (rest.map tree.size).sum ≤ n := by
            have := tree.size_pos (tree.node j tb l r)
            omega
          rw [ih rest hsz out]

/-- The multiset the traversal emits from an empty buffer is exactly the
(multiset) union over the stack of each subtree's overlapping leaf
handles. -/
theorem find_overlaps_loop_ms (q : aabb_t) :
    ∀ (n : Nat) (stack : List tree), (stack.map tree.size).sum ≤ n →
      (∀ t ∈ stack, t.wfContain = true) →
      (↑(find_overlaps_loop q stack []) : Multiset Nat) =
        (stack.map fun t => (↑(overlap_leaf_handles q t) : Multiset Nat)).sum := by
  intro n
  induction n with
  | zero =>
    intro stack h hwf
    match stack with
    | [] => simp [find_overlaps_loop]
    | t :: rest =>
      exfalso
      have := tree.size_pos t
      simp at h
      omega
  | succ n ih =>
    intro stack h hwf
    match stack with
    | [] => simp [find_overlaps_loop]
    | t :: rest =>
      simp only [List.map_cons, List.sum_cons] at h
      have hwt : t.wfContain = true := hwf t (by simp)
      have hwrest : ∀ u ∈ rest, u.wfContain = true := fun u hu =>
        hwf u (by simp [hu])
      cases t with
      | leaf i tb tu =>
        have hsz : (rest.map tree.size).sum ≤ n := by
          simp [tree.size] at h
          omega
        simp only [find_overlaps_loop, tree.bb]
        by_cases ho : aabb_t.overlaps q tb = true
        · rw [if_pos ho]
          rw [find_overlaps_loop_acc q ((rest.map tree.size).sum) rest le_rfl ([] ++ [i])]
          have hih := ih rest hsz hwrest
          have holh : overlap_leaf_handles q (.leaf i tb tu) = [i] := by
            simp [overlap_leaf_handles, tree.leavesList, List.filter, ho]
          simp only [List.nil_append, List.map_cons, List.sum_cons, holh]
          rw [← Multiset.coe_add, hih]
        · rw [if_neg ho]
          have holh : overlap_leaf_handles q (.leaf i tb tu) = [] := by
            simp [overlap_leaf_handles, tree.leavesList, List.filter, ho]
          rw [ih rest hsz hwrest]
          simp [holh]
      | node j tb l r =>
        simp only [find_overlaps_loop, tree.bb]
        by_cases ho : aabb_t.overlaps q tb = true
        · rw [if_pos ho]
          have hsz : ((r :: l :: rest).map tree.size).sum ≤ n := by
            simp [tree.size] at h ⊢
            omega
          have hwf2 : ∀ u ∈ r :: l :: rest, u.wfContain = true := by
            have hwt' := hwt
            simp only [tree.wfContain, Bool.and_eq_true] at hwt'
            intro u hu
            rcases List.mem_cons.mp hu with rfl | hu
            · exact hwt'.2
            rcases List.mem_cons.mp hu with rfl | hu
            · exact hwt'.1.2
            · exact hwrest u hu
          rw [ih (r :: l :: rest) hsz hwf2]
          simp only [List.map_cons, List.sum_cons, overlap_leaf_handles_node]
          rw [← Multiset.coe_add]
          abel
        · rw [if_neg ho]
          have hsz : (rest.map tree.size).sum ≤ n := by
            have := tree.size_pos (tree.node j tb l r)
            omega
          rw [ih rest hsz hwrest]
          simp only [List.map_cons, List.sum_cons]
          rw [overlap_leaf_handles_nil hwt (by simpa [tree.bb] using ho)]
          simp

/-- **C8.** For every tree satisfying §3 invariant 3 and every query
AABB, `find_overlaps` appends to `out` (never clearing it) exactly the
multiset — in particular exactly the set — of leaf handles whose stored
fat AABB overlaps the query (non-strict overlap), and nothing else (so
no interior-node handles). -/
theorem c8_find_overlaps_exact (t : tree) (q : aabb_t) (out : List Nat)
    (hwf : t.wfContain = true) :
    ∃ extra : List Nat, t.find_overlaps q out = out ++ extra ∧
      (↑extra : Multiset Nat) = (↑(overlap_leaf_handles q t) : Multiset Nat) ∧
      (∀ i : Nat, i ∈ extra ↔
        ∃ bb ud, (i, bb, ud) ∈ t.leavesList ∧ q.overlaps bb = true) := by
  refine ⟨find_overlaps_loop q [t] [], ?_, ?_, ?_⟩
  · exact find_overlaps_loop_acc q (([t].map tree.size).sum) [t] le_rfl out
  · rw [find_overlaps_loop_ms q (([t].map tree.size).sum) [t] le_rfl (by simpa using hwf)]
    simp
  · intro i
    have hms := find_overlaps_loop_ms q (([t].map tree.size).sum) [t] le_rfl
      (by simpa using hwf)
    have : i ∈ find_overlaps_loop q [t] [] ↔ i ∈ overlap_leaf_handles q t := by
      constructor
      · intro hi
        have : i ∈ (↑(find_overlaps_loop q [t] []) : Multiset Nat) := by simpa using hi
        rw [hms] at this
        simpa using this
      · intro hi
        have : i ∈ ((([t]).map fun u => (↑(overlap_leaf_handles q u) : Multiset Nat)).sum) := by
          simpa using hi
        rw [← hms] at this
        simpa using this
    rw [this]
    unfold overlap_leaf_handles
    constructor
    · intro hi
      obtain ⟨⟨i', bb, ud⟩, hmem, rfl⟩ := List.mem_map.mp hi
      have := List.mem_filter.mp hmem
      exact ⟨bb, ud, this.1, by simpa using this.2⟩
    · rintro ⟨bb, ud, hmem, hov⟩
      exact List.mem_map.mpr ⟨(i, bb, ud), List.mem_filter.mpr ⟨hmem, by simpa using hov⟩, rfl⟩

/-- Witness for `c8_find_overlaps_exact` at seed scenario 5: querying
`{0,0,2,2}` on the two-leaf tree returns exactly handle 0, appended to
the buffer. -/
theorem c8_find_overlaps_exact_witness :
    treeEx.wfContain = true ∧
    ∃ extra : List Nat, treeEx.find_overlaps ⟨0, 0, 2, 2⟩ [42] = [42] ++ extra ∧
      (↑extra : Multiset Nat) =
        (↑(overlap_leaf_handles ⟨0, 0, 2, 2⟩ treeEx) : Multiset Nat) ∧
      (∀ i : Nat, i ∈ extra ↔
        ∃ bb ud, (i, bb, ud) ∈ treeEx.leavesList ∧
          aabb_t.overlaps ⟨0, 0, 2, 2⟩ bb = true) :=
  ⟨by decide, c8_find_overlaps_exact treeEx ⟨0, 0, 2, 2⟩ [42] (by decide)⟩

/-! ### Frame: `remove`, `move` and `optimize` leave other leaves'
stored AABB and payload untouched (claim C10) -/

theorem tree.mem_leaves_optimize_pass {p : Nat × aabb_t × Nat} {t : tree}
    (h : p ∈ t.leavesList) : p ∈ t.optimize_pass.leavesList := by
  cases t with
  | leaf i bb ud => simpa [tree.optimize_pass] using h
  | node i bb c0 c1 =>
    cases c0 with
    | leaf ci cbb cud =>
      simp [tree.optimize_pass, tree.leavesList] at h ⊢
      tauto
    | node ci cbb x0 x1 =>
      simp only [tree.optimize_pass]
      split_ifs <;> simp [tree.leavesList] at h ⊢ <;> tauto

theorem tree.mem_leaves_optimize_node {p : Nat × aabb_t × Nat} {t : tree}
    (h : p ∈ t.leavesList) : p ∈ t.optimize_node.leavesList :=
  tree.mem_leaves_optimize_pass (tree.mem_leaves_optimize_pass h)

theorem tree.mem_leaves_optimize_walk {p : Nat × aabb_t × Nat}
    (oracle : List Bool) {t : tree} (h : p ∈ t.leavesList) :
    p ∈ (tree.optimize_walk oracle t).leavesList := by
  induction t generalizing oracle with
  | leaf i bb ud => simpa [tree.optimize_walk] using h
  | node i bb l r ihl ihr =>
    simp only [tree.optimize_walk]
    by_cases hb : oracle.headD true = true <;> simp only [hb, if_true, if_false]
    · refine tree.mem_leaves_optimize_node ?_
      simp only [tree.leavesList, List.mem_append] at h ⊢
      rcases h with h | h
      · exact Or.inl (ihl oracle.tail h)
      · exact Or.inr h
    · refine tree.mem_leaves_optimize_node ?_
      simp only [tree.leavesList, List.mem_append] at h ⊢
      rcases h with h | h
      · exact Or.inl h
      · exact Or.inr (ihr oracle.tail h)

theorem tree.isLeafIdx_iff {t : tree} {tgt : Nat} :
    t.isLeafIdx tgt = true ↔ ∃ bb ud, t = .leaf tgt bb ud := by
  cases t with
  | leaf i bb ud =>
    simp only [tree.isLeafIdx, decide_eq_true_eq]
    constructor
    · rintro rfl
      exact ⟨bb, ud, rfl⟩
    · rintro ⟨bb2, ud2, heq⟩
      cases heq
      rfl
  | node i bb l r => simp [tree.isLeafIdx]

theorem tree.removeLeaf_isSome {t : tree} {tgt : Nat}
    (h : ¬ t.isLeafIdx tgt = true) : ∃ t', t.removeLeaf tgt = some t' := by
  cases t with
  | leaf i bb ud =>
    simp [tree.isLeafIdx] at h
    exact ⟨tree.leaf i bb ud, by simp [tree.removeLeaf, h]⟩
  | node i bb l r =>
    simp only [tree.removeLeaf]
    split_ifs <;> try exact ⟨_, rfl⟩
    · cases hl : tree.removeLeaf l tgt <;> exact ⟨_, rfl⟩
    · cases hr : tree.removeLeaf r tgt <;> exact ⟨_, rfl⟩

theorem tree.removeLeaf_eq_none {t : tree} {tgt : Nat}
    (h : t.removeLeaf tgt = none) : ∃ bb ud, t = tree.leaf tgt bb ud := by
  by_cases hi : t.isLeafIdx tgt = true
  · exact tree.isLeafIdx_iff.mp hi
  · obtain ⟨t', ht'⟩ := tree.removeLeaf_isSome hi
    rw [ht'] at h
    cases h

theorem tree.removeLeaf_frame {t : tree} {tgt j : Nat} {bb : aabb_t} {ud : Nat}
    (hmem : (j, bb, ud) ∈ t.leavesList) (hne : j ≠ tgt) :
    ∃ t', t.removeLeaf tgt = some t' ∧ (j, bb, ud) ∈ t'.leavesList := by
  induction t with
  | leaf i tb tu =>
    simp [tree.leavesList] at hmem
    obtain ⟨rfl, rfl, rfl⟩ := hmem
    exact ⟨tree.leaf j bb ud, by simp [tree.removeLeaf, hne],
      by simp [tree.leavesList]⟩
  | node i tb l r ihl ihr =>
    simp only [tree.leavesList, List.mem_append] at hmem
    simp only [tree.removeLeaf]
    by_cases h1 : l.isLeafIdx tgt = true
    · rw [if_pos h1]
      obtain ⟨lb, lu, rfl⟩ := tree.isLeafIdx_iff.mp h1
      rcases hmem with hm | hm
      · simp [tree.leavesList] at hm
        exact absurd hm.1 hne
      · exact ⟨r, rfl, hm⟩
    · rw [if_neg h1]
      by_cases h2 : r.isLeafIdx tgt = true
      · rw [if_pos h2]
        obtain ⟨rb, ru, rfl⟩ := tree.isLeafIdx_iff.mp h2
        rcases hmem with hm | hm
        · exact ⟨l, rfl, hm⟩
        · simp [tree.leavesList] at hm
          exact absurd hm.1 hne
      · rw [if_neg h2]
        by_cases h3 : l.hasLeafIdx tgt = true
        · rw [if_pos h3]
          rcases hmem with hm | hm
          · obtain ⟨l', hl', hml'⟩ := ihl hm
            rw [hl']
            exact ⟨_, rfl, by simp [tree.leavesList, List.mem_append, hml']⟩
          · obtain ⟨l', hl'⟩ := tree.removeLeaf_isSome h1
            rw [hl']
            exact ⟨_, rfl, by simp [tree.leavesList, List.mem_append, hm]⟩
        · rw [if_neg h3]
          rcases hmem with hm | hm
          · obtain ⟨r', hr'⟩ := tree.removeLeaf_isSome h2
            rw [hr']
            exact ⟨_, rfl, by simp [tree.leavesList, List.mem_append, hm]⟩
          · obtain ⟨r', hr', hmr'⟩ := ihr hm
            rw [hr']
            exact ⟨_, rfl, by simp [tree.leavesList, List.mem_append, hmr']⟩

theorem tree.graft_recalc_frame {t : tree} {sibi : Nat} {nl : tree}
    {fresh : Nat} {p : Nat × aabb_t × Nat} (hmem : p ∈ t.leavesList) :
    p ∈ (t.graft_recalc sibi nl fresh).leavesList := by
  induction t with
  | leaf i tb tu =>
    simp only [tree.graft_recalc]
    split_ifs with h
    · simp [tree.leavesList] at hmem ⊢
      tauto
    · exact hmem
  | node i tb l r ihl ihr =>
    simp only [tree.graft_recalc]
    split_ifs with h1 h2
    · refine tree.mem_leaves_optimize_node ?_
      simp only [tree.leavesList, List.mem_append] at hmem ⊢
      rcases hmem with hm | hm
      · exact Or.inl (ihl hm)
      · exact Or.inr hm
    · refine tree.mem_leaves_optimize_node ?_
      simp only [tree.leavesList, List.mem_append] at hmem ⊢
      rcases hmem with hm | hm
      · exact Or.inl hm
      · exact Or.inr (ihr hm)
    · exact hmem

theorem tree.insert_at_best_frame {t : tree} {nl : tree} {fresh : Nat}
    {p : Nat × aabb_t × Nat} (hmem : p ∈ t.leavesList) :
    p ∈ (t.insert_at_best nl fresh).leavesList := by
  unfold tree.insert_at_best
  cases t.find_best_sibling nl.bb with
  | none => exact hmem
  | some sibi => exact tree.graft_recalc_frame hmem

theorem tree.move_frame {t : tree} {tgt : Nat} {a : aabb_t} {g : ℤ}
    {freshA freshB j : Nat} {bb : aabb_t} {ud : Nat}
    (hmem : (j, bb, ud) ∈ t.leavesList) (hne : j ≠ tgt) :
    (j, bb, ud) ∈ (t.move_t tgt a g freshA freshB).leavesList := by
  unfold tree.move_t
  cases hg : t.getLeaf tgt with
  | none => exact hmem
  | some q =>
    obtain ⟨fat, pud⟩ := q
    by_cases hc : fat.contains a = true
    · simp only [hc, if_true]
      exact hmem
    · simp only [hc, if_false]
      cases hr : t.removeLeaf tgt with
      | none =>
        obtain ⟨tb, tu, rfl⟩ := tree.removeLeaf_eq_none hr
        simp [tree.leavesList] at hmem
        exact absurd hmem.1 hne
      | some t1 =>
        obtain ⟨t', ht', hmt'⟩ := tree.removeLeaf_frame hmem hne
        rw [hr] at ht'
        cases ht'
        cases t1 with
        | leaf i2 bb2 ud2 =>
          refine tree.insert_at_best_frame ?_
          simp only [tree.leavesList, List.mem_append]
          exact Or.inl hmt'
        | node i2 bb2 l2 r2 =>
          exact tree.insert_at_best_frame hmt'

/-- **C10.** For every live leaf other than the operation's target,
`remove` (its `_unlink` surgery), `move` (hysteresis, unlink and
re-insert, including the fallen-through branch) and `optimize` (the
random-descent rotation pass) keep that leaf present with its stored fat
AABB and payload unchanged: these operations restructure interior
AABBs and links only. -/
theorem c10_ops_preserve_other_leaves (j : Nat) (bb : aabb_t) (ud : Nat) :
    (∀ (t : tree) (tgt : Nat), (j, bb, ud) ∈ t.leavesList → j ≠ tgt →
      ∃ t', t.removeLeaf tgt = some t' ∧ (j, bb, ud) ∈ t'.leavesList) ∧
    (∀ (t : tree) (tgt : Nat) (a : aabb_t) (g : ℤ) (fA fB : Nat),
      (j, bb, ud) ∈ t.leavesList → j ≠ tgt →
      (j, bb, ud) ∈ (t.move_t tgt a g fA fB).leavesList) ∧
    (∀ (oracle : List Bool) (t : tree), (j, bb, ud) ∈ t.leavesList →
      (j, bb, ud) ∈ (tree.optimize_walk oracle t).leavesList) :=
  ⟨fun _ _ hmem hne => tree.removeLeaf_frame hmem hne,
   fun _ _ _ _ _ _ hmem hne => tree.move_frame hmem hne,
   fun oracle _ hmem => tree.mem_leaves_optimize_walk oracle hmem⟩

/-- Witness for `c10_ops_preserve_other_leaves`: on the two-leaf seed
tree, removing, moving or optimizing around leaf 0 leaves leaf 1's fat
AABB and payload in place. -/
theorem c10_ops_preserve_other_leaves_witness :
    ((1, fatB, 7) ∈ treeEx.leavesList ∧ (1 : Nat) ≠ 0) ∧
    (∃ t', treeEx.removeLeaf 0 = some t' ∧ (1, fatB, 7) ∈ t'.leavesList) ∧
    (1, fatB, 7) ∈ (treeEx.move_t 0 ⟨100, 100, 101, 101⟩ 16 2 3).leavesList ∧
    (1, fatB, 7) ∈ (tree.optimize_walk [] treeEx).leavesList :=
  ⟨⟨by decide, by decide⟩,
   (c10_ops_preserve_other_leaves 1 fatB 7).1 treeEx 0 (by decide) (by decide),
   (c10_ops_preserve_other_leaves 1 fatB 7).2.1 treeEx 0 ⟨100, 100, 101, 101⟩ 16 2 3
     (by decide) (by decide),
   (c10_ops_preserve_other_leaves 1 fatB 7).2.2 [] treeEx (by decide)⟩

/-! ### The binary heap preserves its entries as a multiset

Positional swaps inside the live segment `[1, index_)` and the structure
of `push`/`pop` are all that the branch-and-bound correctness argument
needs from `bin_heap_t`: a successful `push` adds exactly the pushed
entry, and `pop` removes exactly the returned one. -/

theorem getD_lt {l : List α} {i : Nat} (d : α) (h : i < l.length) :
    l.getD i d = l[i] := by
  rw [List.getD_eq_getElem?_getD, List.getElem?_eq_getElem h]
  rfl

theorem coe_set_cons_ms (l : List α) (i : Nat) (x d : α) (h : i < l.length) :
    (l.getD i d) ::ₘ (↑(l.set i x) : Multiset α) = x ::ₘ (↑l : Multiset α) := by
  induction l generalizing i with
  | nil => simp at h
  | cons a as ih =>
    cases i with
    | zero =>
      simp only [List.set_cons_zero, List.getD_cons_zero]
      calc a ::ₘ (↑(x :: as) : Multiset α) = a ::ₘ x ::ₘ (↑as : Multiset α) := by simp
        _ = x ::ₘ a ::ₘ (↑as : Multiset α) := Multiset.cons_swap _ _ _
        _ = x ::ₘ (↑(a :: as) : Multiset α) := by simp
    | succ n =>
      have hn : n < as.length := by simpa using h
      have hih := ih n hn
      simp only [List.set_cons_succ, List.getD_cons_succ]
      calc as.getD n d ::ₘ (↑(a :: as.set n x) : Multiset α)
          = as.getD n d ::ₘ a ::ₘ (↑(as.set n x) : Multiset α) := by simp
        _ = a ::ₘ (as.getD n d ::ₘ (↑(as.set n x) : Multiset α)) := Multiset.cons_swap _ _ _
        _ = a ::ₘ x ::ₘ (↑as : Multiset α) := by rw [hih]
        _ = x ::ₘ a ::ₘ (↑as : Multiset α) := Multiset.cons_swap _ _ _
        _ = x ::ₘ (↑(a :: as) : Multiset α) := by simp

theorem lswap_ms (l : List α) (i j : Nat) (d : α)
    (hi : i < l.length) (hj : j < l.length) :
    (↑(lswap l i j d) : Multiset α) = ↑l := by
  unfold lswap
  have h1 := coe_set_cons_ms (l.set i (l.getD j d)) j (l.getD i d) d
    (by simpa using hj)
  have h2 := coe_set_cons_ms l i (l.getD j d) d hi
  have hgb : (l.set i (l.getD j d)).getD j d = l.getD j d := by
    rw [getD_lt _ (by simpa using hj), List.getElem_set]
    by_cases hij : i = j
    · subst hij
      simp [getD_lt _ hj]
    · rw [if_neg hij, ← getD_lt d hj]
  rw [hgb] at h1
  exact (Multiset.cons_inj_right _).mp (h1.trans h2)

theorem segl_length (l : List α) (idx : Nat) :
    (segl l idx).length = min idx l.length - 1 := by
  simp [segl]

theorem segl_one (l : List α) : segl l 1 = [] := by
  cases l <;> simp [segl]

theorem segl_getElem (l : List α) (idx k : Nat) (h : k < (segl l idx).length)
    (h2 : k + 1 < l.length) :
    (segl l idx)[k] = l[k + 1] := by
  simp only [segl]
  rw [List.getElem_drop, List.getElem_take]
  congr 1
  omega

theorem segl_set_inside (l : List α) (idx i : Nat) (x : α)
    (h1 : 1 ≤ i) (h2 : i < idx) (h3 : idx ≤ l.length) :
    segl (l.set i x) idx = (segl l idx).set (i - 1) x := by
  apply List.ext_getElem
  · simp [segl_length, List.length_set]
  · intro k hk hk'
    have hk2 : k < (segl l idx).length := by
      simpa [List.length_set] using hk'
    have hkl : k + 1 < l.length := by
      simp [segl_length, List.length_set] at hk
      omega
    have hkl2 : k + 1 < (l.set i x).length := by
      simpa [List.length_set] using hkl
    have hlhs : (segl (l.set i x) idx)[k] = (l.set i x)[k + 1] :=
      segl_getElem (l.set i x) idx k hk hkl2
    have hrhs : ((segl l idx).set (i - 1) x)[k] =
        if i - 1 = k then x else (segl l idx)[k] := List.getElem_set _
    have hrhs2 : (segl l idx)[k] = l[k + 1] :=
      segl_getElem _ _ _ hk2 hkl
    have hlhs2 : (l.set i x)[k + 1] =
        if i = k + 1 then x else l[k + 1] := List.getElem_set _
    rw [hlhs, hlhs2, hrhs, hrhs2]
    by_cases e : i = k + 1
    · have e2 : i - 1 = k := by omega
      rw [if_pos e, if_pos e2]
    · have e2 : ¬ (i - 1 = k) := by omega
      rw [if_neg e, if_neg e2]

theorem segl_set_outside (l : List α) (idx i : Nat) (x : α)
    (h1 : idx ≤ i) :
    segl (l.set i x) idx = segl l idx := by
  apply List.ext_getElem
  · simp [segl_length, List.length_set]
  · intro k hk hk'
    have hkl : k + 1 < l.length := by
      simp [segl_length, List.length_set] at hk
      omega
    have hkl2 : k + 1 < (l.set i x).length := by
      simpa [List.length_set] using hkl
    have hlhs : (l.set i x)[k + 1] =
        if i = k + 1 then x else l[k + 1] := List.getElem_set _
    have hne : ¬ (i = k + 1) := by
      simp [segl_length, List.length_set] at hk
      omega
    rw [segl_getElem _ _ _ hk hkl2, segl_getElem _ _ _ hk' hkl, hlhs, if_neg hne]

theorem segl_getD (l : List α) (idx k : Nat) (d : α)
    (h : k < (segl l idx).length) :
    (segl l idx).getD k d = l.getD (k + 1) d := by
  have h2 : k + 1 < l.length := by
    simp [segl_length] at h
    omega
  rw [getD_lt _ h, segl_getElem _ _ _ h h2, getD_lt _ h2]

theorem segl_lswap (l : List α) (idx i j : Nat) (d : α)
    (hi1 : 1 ≤ i) (hi2 : i < idx) (hj1 : 1 ≤ j) (hj2 : j < idx)
    (hlen : idx ≤ l.length) :
    segl (lswap l i j d) idx = lswap (segl l idx) (i - 1) (j - 1) d := by
  have hil : i < l.length := lt_of_lt_of_le hi2 hlen
  have hjl : j < l.length := lt_of_lt_of_le hj2 hlen
  have hseglen : (segl l idx).length = idx - 1 := by
    simp [segl_length]
    omega
  unfold lswap
  rw [segl_set_inside _ _ _ _ hj1 hj2 (by simpa [List.length_set] using hlen)]
  rw [segl_set_inside _ _ _ _ hi1 hi2 hlen]
  rw [segl_getD _ _ _ _ (by omega), segl_getD _ _ _ _ (by omega)]
  have e1 : i - 1 + 1 = i := by omega
  have e2 : j - 1 + 1 = j := by omega
  rw [e1, e2]

theorem segl_ms_lswap (l : List α) (idx i j : Nat) (d : α)
    (hi1 : 1 ≤ i) (hi2 : i < idx) (hj1 : 1 ≤ j) (hj2 : j < idx)
    (hlen : idx ≤ l.length) :
    (↑(segl (lswap l i j d) idx) : Multiset α) = ↑(segl l idx) := by
  rw [segl_lswap _ _ _ _ _ hi1 hi2 hj1 hj2 hlen]
  have hseglen : (segl l idx).length = idx - 1 := by
    simp [segl_length]
    omega
  exact lswap_ms _ _ _ _ (by omega) (by omega)

theorem lswap_length (l : List α) (i j : Nat) (d : α) :
    (lswap l i j d).length = l.length := by
  simp [lswap]

theorem lset1_length (l : List α) (i : Nat) (x : α) (h : i ≤ l.length) :
    (lset1 l i x).length = if i < l.length then l.length else l.length + 1 := by
  unfold lset1
  split_ifs <;> simp

theorem lset1_getD (l : List α) (i k : Nat) (x d : α) (hle : i ≤ l.length) :
    (lset1 l i x).getD k d = if k = i then x else l.getD k d := by
  unfold lset1
  by_cases hil : i < l.length
  · rw [if_pos hil]
    by_cases hk : k = i
    · subst hk
      rw [if_pos rfl, getD_lt d (by simpa using hil)]
      exact List.getElem_set_self ..
    · rw [if_neg hk]
      by_cases hkl : k < l.length
      · rw [getD_lt d (by simpa using hkl), getD_lt d hkl, List.getElem_set,
          if_neg (fun hh => hk hh.symm)]
      · rw [List.getD_eq_getElem?_getD, List.getD_eq_getElem?_getD,
          List.getElem?_eq_none (by simp; omega), List.getElem?_eq_none (by omega)]
  · rw [if_neg hil]
    have hi : i = l.length := by omega
    by_cases hk : k = i
    · subst hk
      rw [if_pos rfl, getD_lt d (by simp; omega)]
      rw [List.getElem_append_right (by omega)]
      simp [hi]
    · rw [if_neg hk]
      by_cases hkl : k < l.length
      · rw [getD_lt d (by simp; omega), getD_lt d hkl]
        exact List.getElem_append_left ..
      · rw [List.getD_eq_getElem?_getD, List.getD_eq_getElem?_getD,
          List.getElem?_eq_none (by simp; omega), List.getElem?_eq_none (by omega)]

theorem segl_lset1 (l : List α) (idx : Nat) (x d : α)
    (h1 : 1 ≤ idx) (h2 : idx ≤ l.length) :
    segl (lset1 l idx x) (idx + 1) = segl l idx ++ [x] := by
  have hlen : (lset1 l idx x).length =
      if idx < l.length then l.length else l.length + 1 :=
    lset1_length l idx x h2
  apply List.ext_getElem
  · simp only [segl_length, List.length_append, List.length_singleton, hlen]
    split_ifs <;> omega
  · intro k hk hk'
    have hkb : k < idx := by
      have hx := segl_length (lset1 l idx x) (idx + 1)
      rw [hlen] at hx
      rw [hx] at hk
      split_ifs at hk <;> omega
    rw [← getD_lt d hk, ← getD_lt d hk']
    rw [segl_getD _ _ _ _ hk]
    rw [lset1_getD l idx (k + 1) x d h2]
    by_cases hc : k + 1 = idx
    · rw [if_pos hc]
      rw [List.getD_append_right _ _ _ _ (by simp [segl_length]; omega)]
      have he : k - (segl l idx).length = 0 := by
        simp [segl_length]
        omega
      rw [he]
      rfl
    · rw [if_neg hc]
      rw [List.getD_append _ _ _ _ (by simp [segl_length]; omega)]
      rw [segl_getD _ _ _ _ (by simp [segl_length]; omega)]

theorem segl_snoc (l : List α) (idx : Nat) (d : α)
    (h1 : 1 ≤ idx) (h2 : idx < l.length) :
    segl l (idx + 1) = segl l idx ++ [l.getD idx d] := by
  apply List.ext_getElem
  · simp [segl_length]
    omega
  · intro k hk hk'
    have hkb : k < idx := by
      simp [segl_length] at hk
      omega
    rw [← getD_lt d hk, ← getD_lt d hk']
    rw [segl_getD _ _ _ _ hk]
    by_cases hc : k + 1 = idx
    · rw [List.getD_append_right _ _ _ _ (by simp [segl_length]; omega)]
      have he : k - (segl l idx).length = 0 := by
        simp [segl_length]
        omega
      rw [he, hc]
      simp
    · rw [List.getD_append _ _ _ _ (by simp [segl_length]; omega),
        segl_getD _ _ _ _ (by simp [segl_length]; omega)]

theorem bubble_up_ms (lt : α → α → Bool) (d : α) (idx : Nat) :
    ∀ (fuel : Nat) (l : List α) (i : Nat), i < idx → idx ≤ l.length →
      (↑(segl (bubble_up lt d fuel l i) idx) : Multiset α) = ↑(segl l idx) ∧
      (bubble_up lt d fuel l i).length = l.length := by
  intro fuel
  induction fuel with
  | zero =>
    intro l i h1 h2
    simp [bubble_up]
  | succ fuel ih =>
    intro l i h1 h2
    simp only [bubble_up]
    by_cases hgt : 1 < i
    · rw [if_pos hgt]
      by_cases hlt : lt (l.getD i d) (l.getD (i / 2) d) = true
      · rw [if_pos hlt]
        have hj1 : 1 ≤ i / 2 := by omega
        have hj2 : i / 2 < idx := by omega
        obtain ⟨hms, hlen⟩ := ih (lswap l i (i / 2) d) (i / 2) hj2
          (by rw [lswap_length]; exact h2)
        refine ⟨?_, by rw [hlen, lswap_length]⟩
        rw [hms]
        exact segl_ms_lswap l idx i (i / 2) d (by omega) h1 hj1 hj2 h2
      · rw [if_neg hlt]
        exact ⟨rfl, rfl⟩
    · rw [if_neg hgt]
      exact ⟨rfl, rfl⟩

theorem bubble_down_ms (lt : α → α → Bool) (d : α) (idx : Nat) :
    ∀ (fuel : Nat) (l : List α) (i : Nat), 1 ≤ i → idx ≤ l.length →
      (↑(segl (bubble_down lt d idx fuel l i) idx) : Multiset α) = ↑(segl l idx) ∧
      (bubble_down lt d idx fuel l i).length = l.length := by
  intro fuel
  induction fuel with
  | zero =>
    intro l i h1 h2
    simp [bubble_down]
  | succ fuel ih =>
    intro l i h1 h2
    simp only [bubble_down]
    by_cases hx : 2 * i < idx
    · rw [if_pos hx]
      have hi2 : i < idx := by omega
      by_cases hsel : (decide (2 * i + 1 < idx) && lt (l.getD (2 * i + 1) d) (l.getD (2 * i) d)) = true
      · simp only [hsel, if_true]
        have hy : 2 * i + 1 < idx := by
          simp only [Bool.and_eq_true, decide_eq_true_eq] at hsel
          exact hsel.1
        by_cases hlt : lt (l.getD (2 * i + 1) d) (l.getD i d) = true
        · rw [if_pos hlt]
          obtain ⟨hms, hlen⟩ := ih (lswap l (2 * i + 1) i d) (2 * i + 1) (by omega)
            (by rw [lswap_length]; exact h2)
          refine ⟨?_, by rw [hlen, lswap_length]⟩
          rw [hms]
          exact segl_ms_lswap l idx (2 * i + 1) i d (by omega) hy h1 hi2 h2
        · rw [if_neg hlt]
          exact ⟨rfl, rfl⟩
      · simp only [Bool.not_eq_true] at hsel
        simp only [hsel, Bool.false_eq_true, if_false]
        by_cases hlt : lt (l.getD (2 * i) d) (l.getD i d) = true
        · rw [if_pos hlt]
          obtain ⟨hms, hlen⟩ := ih (lswap l (2 * i) i d) (2 * i) (by omega)
            (by rw [lswap_length]; exact h2)
          refine ⟨?_, by rw [hlen, lswap_length]⟩
          rw [hms]
          exact segl_ms_lswap l idx (2 * i) i d (by omega) hx h1 hi2 h2
        · rw [if_neg hlt]
          exact ⟨rfl, rfl⟩
    · rw [if_neg hx]
      exact ⟨rfl, rfl⟩

theorem heap_push_ms {c : Nat} (lt : α → α → Bool) (d x : α)
    {h : bin_heap_t α} (hwf : heap_wf h) (hcap : h.index_ ≤ c) :
    ∃ h', heap_push c lt d x h = some h' ∧ heap_wf h' ∧
      (↑(heap_entries h') : Multiset α) = x ::ₘ ↑(heap_entries h) ∧
      h'.index_ = h.index_ + 1 := by
  obtain ⟨hw1, hw2⟩ := hwf
  have hl1 : (lset1 h.heap_ h.index_ x).length =
      if h.index_ < h.heap_.length then h.heap_.length else h.heap_.length + 1 :=
    lset1_length _ _ _ hw2
  have hl1b : h.index_ + 1 ≤ (lset1 h.heap_ h.index_ x).length := by
    rw [hl1]
    split_ifs <;> omega
  obtain ⟨hbms, hblen⟩ := bubble_up_ms lt d (h.index_ + 1) (h.index_ + 1)
    (lset1 h.heap_ h.index_ x) h.index_ (by omega) hl1b
  unfold heap_push
  have hng : ¬ (h.index_ > c) := by omega
  rw [if_neg hng]
  refine ⟨_, rfl, ⟨?_, ?_⟩, ?_, rfl⟩
  · show 1 ≤ h.index_ + 1
    omega
  · show h.index_ + 1 ≤ (bubble_up lt d (h.index_ + 1) (lset1 h.heap_ h.index_ x) h.index_).length
    rw [hblen]
    exact hl1b
  · show (↑(segl (bubble_up lt d (h.index_ + 1) (lset1 h.heap_ h.index_ x) h.index_)
      (h.index_ + 1)) : Multiset α) = x ::ₘ ↑(segl h.heap_ h.index_)
    rw [hbms, segl_lset1 _ _ _ d hw1 hw2]
    rw [← Multiset.coe_add, add_comm]
    simp

theorem heap_pop_ms (lt : α → α → Bool) (d : α) {h : bin_heap_t α}
    (hwf : heap_wf h) (hne : 1 < h.index_) :
    ∃ e h', heap_pop lt d h = some (e, h') ∧ heap_wf h' ∧
      (↑(heap_entries h) : Multiset α) = e ::ₘ ↑(heap_entries h') ∧
      h'.index_ = h.index_ - 1 := by
  obtain ⟨hw1, hw2⟩ := hwf
  obtain ⟨hbms, hblen⟩ := bubble_down_ms lt d (h.index_ - 1) (h.index_ - 1 + 1)
    (lswap h.heap_ 1 (h.index_ - 1) d) 1 le_rfl (by rw [lswap_length]; omega)
  unfold heap_pop
  have hng : ¬ (h.index_ ≤ 1) := by omega
  rw [if_neg hng]
  refine ⟨_, _, rfl, ⟨?_, ?_⟩, ?_, rfl⟩
  · show 1 ≤ h.index_ - 1
    omega
  · show h.index_ - 1 ≤ (bubble_down lt d (h.index_ - 1) (h.index_ - 1 + 1)
      (lswap h.heap_ 1 (h.index_ - 1) d) 1).length
    rw [hblen, lswap_length]
    omega
  · show (↑(segl h.heap_ h.index_) : Multiset α) = h.heap_.getD 1 d ::ₘ
      ↑(segl (bubble_down lt d (h.index_ - 1) (h.index_ - 1 + 1)
        (lswap h.heap_ 1 (h.index_ - 1) d) 1) (h.index_ - 1))
    rw [hbms]
    have hsnoc : segl h.heap_ h.index_ =
        segl h.heap_ (h.index_ - 1) ++ [h.heap_.getD (h.index_ - 1) d] := by
      have hs := segl_snoc h.heap_ (h.index_ - 1) d (by omega) (by omega)
      rw [Nat.sub_add_cancel (by omega : 1 ≤ h.index_)] at hs
      exact hs
    rw [hsnoc]
    by_cases hone : h.index_ - 1 = 1
    · rw [hone, segl_one, segl_one]
      simp
    · have hswap : segl (lswap h.heap_ 1 (h.index_ - 1) d) (h.index_ - 1) =
          (segl h.heap_ (h.index_ - 1)).set 0 (h.heap_.getD (h.index_ - 1) d) := by
        unfold lswap
        rw [segl_set_outside _ _ _ _ (by omega)]
        rw [segl_set_inside _ _ _ _ (by omega) (by omega) (by omega)]
      rw [hswap]
      have hseglen : 0 < (segl h.heap_ (h.index_ - 1)).length := by
        simp [segl_length]
        omega
      have hkey := coe_set_cons_ms (segl h.heap_ (h.index_ - 1)) 0
        (h.heap_.getD (h.index_ - 1) d) d hseglen
      have hg0 : (segl h.heap_ (h.index_ - 1)).getD 0 d = h.heap_.getD 1 d := by
        rw [segl_getD _ _ _ _ hseglen]
      rw [hg0] at hkey
      rw [← Multiset.coe_add, add_comm]
      rw [show ((↑[h.heap_.getD (h.index_ - 1) d] : Multiset α)) =
        ({h.heap_.getD (h.index_ - 1) d} : Multiset α) from rfl]
      rw [Multiset.singleton_add]
      exact hkey.symm

/-! ### The branch-and-bound sibling search is optimal (claims C3, C5) -/

theorem heap_entries_length {h : bin_heap_t α} (hwf : heap_wf h) :
    (heap_entries h).length = h.index_ - 1 := by
  obtain ⟨h1, h2⟩ := hwf
  show (segl h.heap_ h.index_).length = _
  simp [segl_length]
  omega

/-- Inserting a box can only grow a valid box's area: the growth delta is
non-negative. -/
theorem cost_delta_nonneg (L bb : aabb_t) (hv : bb.valid = true) :
    0 ≤ cost_delta L bb := by
  simp [aabb_t.valid] at hv
  unfold cost_delta aabb_t.find_union aabb_t.area
  obtain ⟨hx, hy⟩ := hv
  have h1 : bb.maxx - bb.minx ≤ max L.maxx bb.maxx - min L.minx bb.minx := by
    have ha := le_max_right L.maxx bb.maxx
    have hb := min_le_right L.minx bb.minx
    omega
  have h2 : bb.maxy - bb.miny ≤ max L.maxy bb.maxy - min L.miny bb.miny := by
    have ha := le_max_right L.maxy bb.maxy
    have hb := min_le_right L.miny bb.miny
    omega
  have h3 : (0 : ℤ) ≤ bb.maxx - bb.minx := by omega
  have h4 : (0 : ℤ) ≤ bb.maxy - bb.miny := by omega
  nlinarith

theorem tree.validBBs_bb {t : tree} (hv : t.validBBs = true) :
    t.bb.valid = true := by
  cases t <;> simp only [tree.validBBs, Bool.and_eq_true] at hv <;>
    simp [tree.bb]
  · exact hv
  · exact hv.1.1

theorem tree.validBBs_children {i : Nat} {bb : aabb_t} {l r : tree}
    (hv : (tree.node i bb l r).validBBs = true) :
    l.validBBs = true ∧ r.validBBs = true := by
  simp only [tree.validBBs, Bool.and_eq_true] at hv
  exact ⟨hv.1.2, hv.2⟩

/-- Every leaf cost in a valid subtree entered with accumulated cost
`acc` is at least `acc` plus the subtree root's own growth delta. -/
theorem tree.leafCosts_lower (L : aabb_t) :
    ∀ (t : tree) (acc : ℤ), t.validBBs = true →
      ∀ p ∈ tree.leafCosts L t acc, acc + cost_delta L t.bb ≤ p.2 := by
  intro t
  induction t with
  | leaf i bb ud =>
    intro acc hv p hp
    simp [tree.leafCosts] at hp
    subst hp
    simp [tree.bb]
  | node i bb l r ihl ihr =>
    intro acc hv p hp
    obtain ⟨hvl, hvr⟩ := tree.validBBs_children hv
    simp only [tree.leafCosts, List.mem_append] at hp
    rcases hp with hp | hp
    · have := ihl (acc + cost_delta L bb) hvl p hp
      have hd := cost_delta_nonneg L l.bb (tree.validBBs_bb hvl)
      simp only [tree.bb]
      omega
    · have := ihr (acc + cost_delta L bb) hvr p hp
      have hd := cost_delta_nonneg L r.bb (tree.validBBs_bb hvr)
      simp only [tree.bb]
      omega

theorem tree.leafCosts_ne_nil (L : aabb_t) (t : tree) (acc : ℤ) :
    tree.leafCosts L t acc ≠ [] := by
  induction t generalizing acc with
  | leaf i bb ud => simp [tree.leafCosts]
  | node i bb l r ihl ihr =>
    simp only [tree.leafCosts]
    intro hemp
    rcases List.append_eq_nil.mp hemp with ⟨h1, _⟩
    exact ihl _ h1

theorem length_le_lfSum : ∀ (l : List search_tv), l.length ≤ lfSum ↑l := by
  intro l
  induction l with
  | nil => simp [lfSum]
  | cons e rest ih =>
    have := tree.nleaves_pos e.t
    simp only [List.length_cons]
    show _ ≤ lfSum (e ::ₘ ↑rest)
    unfold lfSum at ih ⊢
    rw [Multiset.map_cons, Multiset.sum_cons]
    omega

theorem szSum_cons (e : search_tv) (ms : Multiset search_tv) :
    szSum (e ::ₘ ms) = e.t.size + szSum ms := by
  unfold szSum
  rw [Multiset.map_cons, Multiset.sum_cons]

theorem lfSum_cons (e : search_tv) (ms : Multiset search_tv) :
    lfSum (e ::ₘ ms) = e.t.nleaves + lfSum ms := by
  unfold lfSum
  rw [Multiset.map_cons, Multiset.sum_cons]

/-- The loop invariant argument for `_find_best_sibling`: as long as the
heap's entries are coherent, every leaf cost is covered, and the recorded
best is genuine, the loop completes (never hitting a full heap, the fuel
bound, or an empty result) and returns a leaf of minimal total insertion
cost.  The size bound `nleaves t0 ≤ 512` — guaranteed by the 1024-slot
arena — keeps the heap occupancy strictly below the 1024 capacity. -/
theorem fbs_loop_spec (L : aabb_t) (t0 : tree) (hlv : t0.nleaves ≤ 512) :
    ∀ (fuel : Nat) (pq : bin_heap_t search_tv) (bc : Option ℤ) (bi : Nat),
      heap_wf pq →
      szSum ↑(heap_entries pq) < fuel →
      lfSum ↑(heap_entries pq) ≤ t0.nleaves →
      (∀ e ∈ (↑(heap_entries pq) : Multiset search_tv), entOK L t0 e) →
      (∀ p ∈ tree.leafCosts L t0 0, covered L ↑(heap_entries pq) bc p) →
      bestOK L t0 bc bi →
      ∃ i c, fbs_loop_tv L fuel pq bc bi = some i ∧
        (i, c) ∈ tree.leafCosts L t0 0 ∧
        ∀ p ∈ tree.leafCosts L t0 0, c ≤ p.2 := by
  intro fuel
  induction fuel with
  | zero =>
    intro pq bc bi hwf hsz hlf hent hcov hbest
    omega
  | succ fuel ih =>
    intro pq bc bi hwf hsz hlf hent hcov hbest
    simp only [fbs_loop_tv]
    by_cases hemp : pq.index_ ≤ 1
    · have hpop : heap_pop search_tv_lt search_tv_dflt pq = none := by
        unfold heap_pop
        rw [if_pos hemp]
      simp only [hpop]
      have hlen : (heap_entries pq).length = 0 := by
        rw [heap_entries_length hwf]
        omega
      have hnil : heap_entries pq = [] := List.length_eq_zero.mp hlen
      obtain ⟨p0, hp0⟩ := List.exists_mem_of_ne_nil _ (tree.leafCosts_ne_nil L t0 0)
      rcases hcov p0 hp0 with ⟨c, hc, _⟩ | ⟨e, hem, _⟩
      · refine ⟨bi, c, rfl, hbest c hc, ?_⟩
        intro p hp
        rcases hcov p hp with ⟨c2, hc2, hle⟩ | ⟨e, hem, _⟩
        · rw [hc] at hc2
          cases hc2
          exact hle
        · rw [hnil] at hem
          simp at hem
      · rw [hnil] at hem
        simp at hem
    · obtain ⟨e, pq1, hpop, hwf1, hms, hidx1⟩ :=
        heap_pop_ms search_tv_lt search_tv_dflt hwf (by omega)
      simp only [hpop]
      have heOK : entOK L t0 e := by
        apply hent
        rw [hms]
        exact Multiset.mem_cons_self _ _
      have hsz1 : szSum ↑(heap_entries pq1) < fuel := by
        rw [hms, szSum_cons] at hsz
        have := tree.size_pos e.t
        omega
      have hlf1 : lfSum ↑(heap_entries pq1) ≤ t0.nleaves := by
        rw [hms, lfSum_cons] at hlf
        omega
      have hent1 : ∀ e2 ∈ (↑(heap_entries pq1) : Multiset search_tv), entOK L t0 e2 := by
        intro e2 he2
        apply hent
        rw [hms]
        exact Multiset.mem_cons_of_mem he2
      have hcd : e.cost + ((aabb_t.find_union L e.t.bb).area - e.t.bb.area) =
          e.cost + cost_delta L e.t.bb := rfl
      by_cases hge : cost_ge (e.cost + ((aabb_t.find_union L e.t.bb).area - e.t.bb.area)) bc = true
      · rw [if_pos hge]
        refine ih pq1 bc bi hwf1 hsz1 hlf1 hent1 ?_ hbest
        intro p hp
        rcases hcov p hp with hb | ⟨e2, he2, hpe2⟩
        · exact Or.inl hb
        · rw [hms] at he2
          rcases Multiset.mem_cons.mp he2 with rfl | he2
          · left
            obtain ⟨v, hv, hvle⟩ :
                ∃ v, bc = some v ∧ v ≤ e2.cost + cost_delta L e2.t.bb := by
              unfold cost_ge at hge
              cases bc with
              | none => cases hge
              | some v =>
                refine ⟨v, rfl, ?_⟩
                rw [hcd] at hge
                simpa using hge
            refine ⟨v, hv, ?_⟩
            have := tree.leafCosts_lower L e2.t e2.cost heOK.1 p hpe2
            omega
          · exact Or.inr ⟨e2, he2, hpe2⟩
      · rw [if_neg hge]
        have hlt : ∀ v, bc = some v →
            e.cost + cost_delta L e.t.bb < v := by
          intro v hv
          subst hv
          unfold cost_ge at hge
          rw [hcd] at hge
          simpa using hge
        rcases het : e.t with ⟨i2, bb2, ud2⟩ | ⟨i2, bb2, l2, r2⟩
        · -- popped a leaf: record it as the new best
          simp only [het, tree.bb]
          have hmem : (i2, e.cost + cost_delta L e.t.bb) ∈ tree.leafCosts L t0 0 := by
            apply heOK.2
            rw [het]
            simp [tree.leafCosts, tree.bb, het]
          have hcd2 : e.cost + ((aabb_t.find_union L bb2).area - bb2.area) =
              e.cost + cost_delta L e.t.bb := by
            rw [het]
            rfl
          refine ih pq1 (some (e.cost + ((aabb_t.find_union L bb2).area - bb2.area)))
            i2 hwf1 hsz1 hlf1 hent1 ?_ ?_
          · intro p hp
            rcases hcov p hp with ⟨v, hv, hle⟩ | ⟨e2, he2, hpe2⟩
            · left
              refine ⟨_, rfl, ?_⟩
              have := hlt v hv
              rw [hcd2]
              omega
            · rw [hms] at he2
              rcases Multiset.mem_cons.mp he2 with rfl | he2
              · left
                refine ⟨_, rfl, ?_⟩
                rw [het] at hpe2
                simp [tree.leafCosts] at hpe2
                subst hpe2
                rw [hcd2, het]
                simp [tree.bb, cost_delta]
              · exact Or.inr ⟨e2, he2, hpe2⟩
          · intro c hc
            cases hc
            rw [hcd2]
            exact hmem
        · -- popped an interior node: push both children
          simp only [het, tree.bb]
          have hvch := tree.validBBs_children (het ▸ heOK.1)
          have hcd2 : e.cost + ((aabb_t.find_union L bb2).area - bb2.area) =
              e.cost + cost_delta L e.t.bb := by
            rw [het]
            rfl
          have hcap1 : pq1.index_ ≤ 1024 := by
            have h1 : pq1.index_ - 1 ≤ lfSum ↑(heap_entries pq1) := by
              rw [← heap_entries_length hwf1]
              exact length_le_lfSum _
            have h2 : 1 ≤ pq1.index_ := hwf1.1
            omega
          obtain ⟨pq2, hpush2, hwf2, hms2, hidx2⟩ :=
            heap_push_ms search_tv_lt search_tv_dflt
              ⟨l2, e.cost + ((aabb_t.find_union L bb2).area - bb2.area)⟩ hwf1 hcap1
          simp only [hpush2]
          have hcap2 : pq2.index_ ≤ 1024 := by
            have h1 : pq1.index_ - 1 ≤ lfSum ↑(heap_entries pq1) := by
              rw [← heap_entries_length hwf1]
              exact length_le_lfSum _
            omega
          obtain ⟨pq3, hpush3, hwf3, hms3, hidx3⟩ :=
            heap_push_ms search_tv_lt search_tv_dflt
              ⟨r2, e.cost + ((aabb_t.find_union L bb2).area - bb2.area)⟩ hwf2 hcap2
          simp only [hpush3]
          have hszdecomp : szSum (↑(heap_entries pq) : Multiset search_tv) =
              e.t.size + szSum ↑(heap_entries pq1) := by
            rw [hms, szSum_cons]
          have hlfdecomp : lfSum (↑(heap_entries pq) : Multiset search_tv) =
              e.t.nleaves + lfSum ↑(heap_entries pq1) := by
            rw [hms, lfSum_cons]
          have hlc : tree.leafCosts L l2 (e.cost + ((aabb_t.find_union L bb2).area - bb2.area)) ++
              tree.leafCosts L r2 (e.cost + ((aabb_t.find_union L bb2).area - bb2.area)) =
              tree.leafCosts L e.t e.cost := by
            rw [het]
            simp only [tree.leafCosts]
            rfl
          refine ih pq3 bc bi hwf3 ?_ ?_ ?_ ?_ hbest
          · rw [hms3, hms2, szSum_cons, szSum_cons]
            dsimp only
            rw [het] at hszdecomp
            simp only [tree.size] at hszdecomp
            omega
          · rw [hms3, hms2, lfSum_cons, lfSum_cons]
            dsimp only
            rw [het] at hlfdecomp
            simp only [tree.nleaves] at hlfdecomp
            omega
          · intro e2 he2
            rw [hms3] at he2
            rcases Multiset.mem_cons.mp he2 with rfl | he2
            · refine ⟨hvch.2, ?_⟩
              intro p hp
              apply heOK.2
              rw [← hlc]
              simp only [List.mem_append]
              exact Or.inr hp
            · rw [hms2] at he2
              rcases Multiset.mem_cons.mp he2 with rfl | he2
              · refine ⟨hvch.1, ?_⟩
                intro p hp
                apply heOK.2
                rw [← hlc]
                simp only [List.mem_append]
                exact Or.inl hp
              · exact hent1 e2 he2
          · intro p hp
            rcases hcov p hp with hb | ⟨e2, he2, hpe2⟩
            · exact Or.inl hb
            · rw [hms] at he2
              rcases Multiset.mem_cons.mp he2 with rfl | he2
              · rw [← hlc] at hpe2
                simp only [List.mem_append] at hpe2
                rcases hpe2 with hpe2 | hpe2
                · right
                  refine ⟨⟨l2, e2.cost + ((aabb_t.find_union L bb2).area - bb2.area)⟩,
                    ?_, hpe2⟩
                  rw [hms3, hms2]
                  exact Multiset.mem_cons_of_mem (Multiset.mem_cons_self _ _)
                · right
                  refine ⟨⟨r2, e2.cost + ((aabb_t.find_union L bb2).area - bb2.area)⟩,
                    ?_, hpe2⟩
                  rw [hms3]
                  exact Multiset.mem_cons_self _ _
              · right
                refine ⟨e2, ?_, hpe2⟩
                rw [hms3, hms2]
                exact Multiset.mem_cons_of_mem (Multiset.mem_cons_of_mem he2)

/-- The search wiring: seeding the 1024-capacity heap with the root at
cost 0 establishes the loop invariant, so the search completes and
returns a minimal-cost leaf, for every tree of valid boxes that fits the
1024-slot arena. -/
theorem find_best_sibling_spec (t : tree) (L : aabb_t)
    (hv : t.validBBs = true) (hsz : t.size ≤ 1024) :
    ∃ i c, t.find_best_sibling L = some i ∧
      (i, c) ∈ tree.leafCosts L t 0 ∧
      ∀ p ∈ tree.leafCosts L t 0, c ≤ p.2 := by
  have hlv : t.nleaves ≤ 512 := by
    have h1 := tree.size_eq_two_nleaves_sub_one t
    have h2 := tree.nleaves_pos t
    omega
  unfold tree.find_best_sibling
  have hwf0 : heap_wf (heap_empty (α := search_tv) search_tv_dflt) := by
    constructor <;> simp [heap_empty]
  obtain ⟨pq, hpush, hwfp, hmsp, hidxp⟩ :=
    @heap_push_ms search_tv 1024 search_tv_lt search_tv_dflt ⟨t, 0⟩
      (heap_empty search_tv_dflt) hwf0 (by simp [heap_empty])
  simp only [hpush]
  have hms0 : (↑(heap_entries (heap_empty (α := search_tv) search_tv_dflt)) :
      Multiset search_tv) = 0 := rfl
  rw [hms0] at hmsp
  refine fbs_loop_spec L t hlv (t.size + 1) pq none invalid_index hwfp ?_ ?_ ?_ ?_ ?_
  · rw [hmsp, szSum_cons]
    simp [szSum]
  · rw [hmsp, lfSum_cons]
    simp [lfSum]
  · intro e2 he2
    rw [hmsp] at he2
    rcases Multiset.mem_cons.mp he2 with rfl | he2
    · exact ⟨hv, fun p hp => hp⟩
    · simp at he2
  · intro p hp
    right
    refine ⟨⟨t, 0⟩, ?_, hp⟩
    rw [hmsp]
    exact Multiset.mem_cons_self _ _
  · intro c hc
    cases hc

/-- **C3.** For every tree whose root is an interior node, whose boxes
satisfy the §3 invariants (`min ≤ max`), and which fits the 1024-slot
arena, the branch-and-bound sibling search returns a leaf whose total
insertion cost — the sum of the ancestors' growth deltas plus its own —
is minimal among all leaves, under exact arithmetic. -/
theorem c3_sibling_search_returns_minimal_leaf (t : tree) (L : aabb_t)
    (hroot : ∃ i bb l r, t = tree.node i bb l r)
    (hv : t.validBBs = true) (hsz : t.size ≤ 1024) :
    ∃ i c, t.find_best_sibling L = some i ∧
      (i, c) ∈ tree.leafCosts L t 0 ∧
      ∀ p ∈ tree.leafCosts L t 0, c ≤ p.2 :=
  find_best_sibling_spec t L hv hsz

/-- Witness for `c3_sibling_search_returns_minimal_leaf` on the two-leaf
seed tree. -/
theorem c3_sibling_search_returns_minimal_leaf_witness :
    ((∃ i bb l r, treeEx = tree.node i bb l r) ∧
      treeEx.validBBs = true ∧ treeEx.size ≤ 1024) ∧
    (∃ i c, treeEx.find_best_sibling ⟨84, 84, 117, 117⟩ = some i ∧
      (i, c) ∈ tree.leafCosts ⟨84, 84, 117, 117⟩ treeEx 0 ∧
      ∀ p ∈ tree.leafCosts ⟨84, 84, 117, 117⟩ treeEx 0, c ≤ p.2) :=
  ⟨⟨⟨2, aabb_t.find_union fatA fatB, tree.leaf 0 fatA 5, tree.leaf 1 fatB 7, rfl⟩,
      by decide, by decide⟩,
    c3_sibling_search_returns_minimal_leaf treeEx ⟨84, 84, 117, 117⟩
      ⟨2, aabb_t.find_union fatA fatB, tree.leaf 0 fatA 5, tree.leaf 1 fatB 7, rfl⟩
      (by decide) (by decide)⟩

/-- **C5 (counterexample).** The source contains no greedy-descent
fallback: `bin_heap_t::push` on a full 1024-capacity heap is an
assertion failure (modelled `none`), not a recovery path — here on a
concrete heap holding exactly 1024 entries. -/
theorem c5_push_on_full_heap_fails :
    heap_size full_heap_ex = 1024 ∧
    heap_push 1024 search_tv_lt search_tv_dflt search_tv_dflt full_heap_ex = none :=
  ⟨rfl, rfl⟩

/-- **C5 (amended).** No fallback is needed, because the queue can never
be exhausted: on any tree of valid boxes that fits the 1024-slot arena
(at most 512 leaves), the heap's occupancy stays below its 1024
capacity, every push succeeds, and the search completes normally — so
no overflow is ever surfaced to the client and insertion is unaffected.
A `some` result certifies that no push failed and the fuel sufficed. -/
theorem c5_search_never_exhausts_queue (t : tree) (L : aabb_t)
    (hv : t.validBBs = true) (hsz : t.size ≤ 1024) :
    ∃ i, t.find_best_sibling L = some i := by
  obtain ⟨i, c, heq, _, _⟩ := find_best_sibling_spec t L hv hsz
  exact ⟨i, heq⟩

/-- Witness for `c5_search_never_exhausts_queue` on the two-leaf seed
tree. -/
theorem c5_search_never_exhausts_queue_witness :
    (treeEx.validBBs = true ∧ treeEx.size ≤ 1024) ∧
    (∃ i, treeEx.find_best_sibling ⟨0, 0, 2, 2⟩ = some i) :=
  ⟨⟨by decide, by decide⟩,
    c5_search_never_exhausts_queue treeEx ⟨0, 0, 2, 2⟩ (by decide) (by decide)⟩

end BVH
